import Mathlib

/-!
Verification of the AegisRedact redaction pipeline.

This file gives a shallow embedding of the core redaction code
(plain-text and CSV format adapters, the PDF coordinate converter, the
PDF export paths, the payment-card detector and the detection merger)
and proves or refutes the specified properties about them.

Strings are modelled as `List Char`; JavaScript numbers are modelled as
exact rationals (`ℚ`), extended with NaN and signed infinities
(`JSNum`) where the code's NaN/finite checks are at issue.
-/

set_option maxHeartbeats 1000000

namespace AegisRedact

/-! ### Characters and case-insensitive substring search

Mirrors `line.toLowerCase().indexOf(term.toLowerCase(), startIndex)`
as used by `PlainTextFormat` (src/lib/formats/text/PlainTextFormat.ts).
-/

/-- The redaction block character `█` (U+2588). -/
def blk : Char := '█'

/-- JavaScript `String.prototype.toLowerCase`, character-wise. -/
def lowerStr (s : List Char) : List Char := s.map Char.toLower

/-- Proposition: `t` occurs in `s` at index `i` (exact comparison). -/
def OccursAt (s t : List Char) (i : Nat) : Prop :=
  i + t.length ≤ s.length ∧ (s.drop i).take t.length = t

instance (s t : List Char) (i : Nat) : Decidable (OccursAt s t i) := by
  unfold OccursAt; infer_instance

/-- All indices at which `t` occurs in `s`, in ascending order. -/
def occIdxs (s t : List Char) : List Nat :=
  (List.range (s.length + 1)).filter (fun i => decide (OccursAt s t i))

/-- JavaScript `s.indexOf(t, start)`: the least index `≥ start` at which
`t` occurs in `s` (`none` plays the role of `-1`). -/
def indexOfFrom (s t : List Char) (start : Nat) : Option Nat :=
  ((occIdxs s t).filter (fun i => decide (start ≤ i))).head?

/-- The `while`-loop of `PlainTextFormat.findTextBoxes`: repeatedly call
`indexOf` with `startIndex = index + 1`, collecting every match index. -/
def scanFrom (s t : List Char) (start : Nat) : List Nat :=
  match h : indexOfFrom s t start with
  | none => []
  | some i => i :: scanFrom s t (i + 1)
termination_by s.length + 1 - start
decreasing_by
  have hh : ((occIdxs s t).filter (fun j => decide (start ≤ j))).head? = some i := h
  have hmem : i ∈ (occIdxs s t).filter (fun j => decide (start ≤ j)) :=
    List.mem_of_mem_head? (Option.mem_def.mpr hh)
  have h1 : i ∈ occIdxs s t := (List.mem_filter.mp hmem).1
  have h2 : start ≤ i := by simpa using (List.mem_filter.mp hmem).2
  have h3 : i < s.length + 1 := by
    have := (List.mem_filter.mp h1).1
    simpa [List.mem_range] using this
  omega

/-- Splitting on newlines: JavaScript `text.split('\n')`. -/
def splitNl : List Char → List (List Char)
  | [] => [[]]
  | c :: rest =>
    if c = '\n' then [] :: splitNl rest
    else
      match splitNl rest with
      | [] => [[c]]
      | p :: ps => (c :: p) :: ps

/-- Joining with newlines: JavaScript `lines.join('\n')`. -/
def joinNl : List (List Char) → List Char
  | [] => []
  | [l] => l
  | l :: ls => l ++ '\n' :: joinNl ls

/-! ### Bounding boxes (src/lib/formats/base/types.ts `BoundingBox`) -/

/-- Detection source tag (`'regex' | 'ml' | 'manual' | 'hybrid'`). -/
inductive BSource where
  | regex : BSource
  | ml : BSource
  | manual : BSource
  | hybrid : BSource
  deriving DecidableEq, Repr

/-- Unified redaction-region representation across all formats. -/
structure BoundingBox where
  x : ℚ
  y : ℚ
  w : ℚ
  h : ℚ
  text : List Char
  page : Option Nat
  line : Option Nat
  row : Option Nat
  column : Option Nat
  btype : Option (List Char)
  source : Option BSource
  confidence : Option ℚ
  deriving DecidableEq, Repr

/-! ### PlainTextFormat (src/lib/formats/text/PlainTextFormat.ts)

The document is not rendered in this model (no DOM), so `findTextBoxes`
takes the fallback geometry branch (`charWidth = 8`, `lineHeight = 22`).
-/

/-- Plain-text document: line array plus the accumulated box list and
the `modified` flag.  `fullText` is always `joinNl lines`. -/
structure PTDoc where
  lines : List (List Char)
  boxes : List BoundingBox
  modified : Bool
  deriving Repr

/-- `PlainTextFormat.load`: split the file text into lines. -/
def loadPT (text : List Char) : PTDoc :=
  ⟨splitNl text, [], false⟩

/-- One box produced by `PlainTextFormat.findTextBoxes` for a match of
`term` at character index `i` of line `lineIndex` (fallback geometry). -/
def ptBoxAt (line term : List Char) (lineIndex i : Nat) : BoundingBox :=
  ⟨8 * i, 22 * lineIndex, 8 * term.length, 22,
   (line.drop i).take term.length,
   none, some lineIndex, none, none, none, some BSource.regex, none⟩

/-- All boxes for `term` on one line: one per occurrence, scanning with
`startIndex = index + 1` on the lower-cased strings. -/
def findBoxesInLine (term line : List Char) (lineIndex : Nat) : List BoundingBox :=
  (scanFrom (lowerStr line) (lowerStr term) 0).map (ptBoxAt line term lineIndex)

/-- Boxes for `term` over the lines starting at line index `li`. -/
def findBoxesFrom (term : List Char) : Nat → List (List Char) → List BoundingBox
  | _, [] => []
  | li, l :: ls => findBoxesInLine term l li ++ findBoxesFrom term (li + 1) ls

/-- JavaScript `term.trim().length === 0` (also covers the empty term). -/
def isBlankTerm (term : List Char) : Bool :=
  term.all Char.isWhitespace

/-- `PlainTextFormat.findTextBoxes doc terms`. -/
def findTextBoxesPT (doc : PTDoc) (terms : List (List Char)) : List BoundingBox :=
  terms.foldl
    (fun acc term => if isBlankTerm term then acc else acc ++ findBoxesFrom term 0 doc.lines)
    []

/-- A run of `n` block characters. -/
def blockRun (n : Nat) : List Char := List.replicate n blk

/-- Applying one redaction box to a line (`PlainTextFormat.redact` inner
loop): find the first case-insensitive occurrence of the box text and
replace it by an equal-length block run; no occurrence means no change. -/
def applyBoxToLine (line t : List Char) : List Char :=
  match indexOfFrom (lowerStr line) (lowerStr t) 0 with
  | some i => line.take i ++ blockRun t.length ++ line.drop (i + t.length)
  | none => line

/-- The lower-cased shadow of `applyBoxToLine`: replace the first
occurrence of `t` in `s` by an equal-length block run (both strings
already lower-cased).  `applyBoxToLine` maps onto this under
`lowerStr`. -/
def replaceFirst (s t : List Char) : List Char :=
  match indexOfFrom s t 0 with
  | some i => s.take i ++ blockRun t.length ++ s.drop (i + t.length)
  | none => s

/-- Number of occurrence positions of `t` in `s`. -/
def occCount (s t : List Char) : Nat := (occIdxs s t).length

/-- Sort key used by `redact` when ordering a line's boxes: the first
case-insensitive index of the box text in the original line (`-1` when
absent). -/
def boxKey (line : List Char) (b : BoundingBox) : Int :=
  match indexOfFrom (lowerStr line) (lowerStr b.text) 0 with
  | some i => (i : Int)
  | none => -1

/-- Descending order on `boxKey` (the `(a, b) => bStart - aStart`
comparator). -/
def boxKeyGE (line : List Char) (a b : BoundingBox) : Prop :=
  boxKey line b ≤ boxKey line a

instance (line : List Char) : DecidableRel (boxKeyGE line) := by
  unfold boxKeyGE; infer_instance

/-- `PlainTextFormat.redact` restricted to one line: sort the line's
boxes by descending first-occurrence index (computed on the original
line) and then apply them in order. -/
def redactLineBoxes (line : List Char) (bs : List BoundingBox) : List Char :=
  (List.insertionSort (boxKeyGE line) bs).foldl (fun l b => applyBoxToLine l b.text) line

/-- `PlainTextFormat.redact` over the line array: each line receives
exactly the boxes carrying its line index. -/
def redactLinesFrom (boxes : List BoundingBox) : Nat → List (List Char) → List (List Char)
  | _, [] => []
  | li, l :: ls =>
    redactLineBoxes l (boxes.filter (fun b => b.line = some li)) ::
      redactLinesFrom boxes (li + 1) ls

/-- `PlainTextFormat.redact doc boxes`: rewrite the lines, append the
boxes to the accumulator and set `modified`. -/
def redactPT (doc : PTDoc) (boxes : List BoundingBox) : PTDoc :=
  ⟨redactLinesFrom boxes 0 doc.lines, doc.boxes ++ boxes, true⟩

/-- `PlainTextFormat.export`: the blob contains `content.fullText`,
which `redact` maintains as `lines.join('\n')`. -/
def exportPT (doc : PTDoc) : List Char := joinNl doc.lines

/-! ### CsvFormat (src/lib/formats/structured/CsvFormat.ts) -/

/-- CSV document: parsed cell grid, delimiter, accumulated boxes and the
`modified` flag. -/
structure CsvDoc where
  data : List (List (List Char))
  delimiter : Char
  boxes : List BoundingBox
  modified : Bool
  deriving Repr

/-- Whether `t` occurs somewhere in `s` (JavaScript `includes`). -/
def containsSub (s t : List Char) : Bool :=
  !(occIdxs s t).isEmpty

/-- One box produced by `CsvFormat.findTextBoxes` for cell `(r, c)`
(fallback geometry branch, no rendered table). -/
def csvBoxAt (cell : List Char) (r c : Nat) : BoundingBox :=
  ⟨100 * c, 30 * r, 100, 30, cell, none, none, some r, some c,
   none, some BSource.regex, none⟩

/-- Boxes for all terms over one CSV row (row index `r`): one box per
(cell, matching term) pair, whole-cell text. -/
def csvFindInRow (terms : List (List Char)) (r : Nat) (row : List (List Char)) : List BoundingBox :=
  (List.range row.length).flatMap (fun c =>
    match row[c]? with
    | none => []
    | some cell =>
      terms.filterMap (fun term =>
        if isBlankTerm term then none
        else if containsSub (lowerStr cell) (lowerStr term) then some (csvBoxAt cell r c)
        else none))

/-- `CsvFormat.findTextBoxes doc terms`: scan every cell of every row. -/
def findTextBoxesCsv (doc : CsvDoc) (terms : List (List Char)) : List BoundingBox :=
  (List.range doc.data.length).flatMap (fun r =>
    match doc.data[r]? with
    | none => []
    | some row => csvFindInRow terms r row)

/-- The `(row, column)` cell key of a box, when both are defined. -/
def cellKey (b : BoundingBox) : Option (Nat × Nat) :=
  match b.row, b.column with
  | some r, some c => some (r, c)
  | _, _ => none

/-- Keep the first box per distinct cell key (the `cellsToRedact` map:
`if (!cellsToRedact.has(cellKey)) cellsToRedact.set(cellKey, box)`). -/
def firstDedup : List (Nat × Nat) → List (Nat × Nat)
  | [] => []
  | k :: rest => k :: firstDedup (rest.filter (fun j => j ≠ k))
termination_by l => l.length
decreasing_by
  have := List.length_filter_le (fun j => decide (j ≠ k)) rest
  simp only [List.length_cons]
  omega

/-- Update the element at index `i` (out-of-range indices unchanged),
mirroring the guarded JavaScript assignment `data[row][column] = ...`
under `row < data.length && column < data[row].length`. -/
def updateAt {α : Type} : List α → Nat → (α → α) → List α
  | [], _, _ => []
  | x :: xs, 0, f => f x :: xs
  | x :: xs, n + 1, f => x :: updateAt xs n f

/-- Replacement content for a redacted cell:
`'█'.repeat(Math.max(3, Math.min(originalLength, 20)))`. -/
def redactCell (cell : List Char) : List Char :=
  blockRun (max 3 (min cell.length 20))

/-- Apply the whole-cell redaction for each deduplicated cell key. -/
def csvApplyKeys (data : List (List (List Char))) (keys : List (Nat × Nat)) :
    List (List (List Char)) :=
  keys.foldl (fun d k => updateAt d k.1 (fun row => updateAt row k.2 redactCell)) data

/-- `CsvFormat.redact doc boxes`. -/
def redactCsv (doc : CsvDoc) (boxes : List BoundingBox) : CsvDoc :=
  ⟨csvApplyKeys doc.data (firstDedup (boxes.filterMap cellKey)),
   doc.delimiter, doc.boxes ++ boxes, true⟩

/-- The content of cell `(r, c)` of a grid, when present. -/
def cellAt (data : List (List (List Char))) (r c : Nat) : Option (List Char) :=
  (data[r]?).bind (fun row => row[c]?)

/-- Join a list of strings with a single separator character. -/
def joinSep (sep : Char) : List (List Char) → List Char
  | [] => []
  | [x] => x
  | x :: xs => x ++ sep :: joinSep sep xs

/-- RFC-4180-style quoting with `quotes: true`: every field is wrapped
in double quotes and inner quotes are doubled. -/
def csvQuote (cell : List Char) : List Char :=
  '"' :: (cell.flatMap (fun c => if c = '"' then ['"', '"'] else [c])) ++ ['"']

/-- `CsvFormat.export`: `Papa.unparse(data, { quotes: true, ... })` with
newline `'\n'`. -/
def exportCsv (doc : CsvDoc) : List Char :=
  joinNl (doc.data.map (fun row => joinSep doc.delimiter (row.map csvQuote)))

/-! ### JavaScript numbers

Exact rationals extended with NaN and the two signed infinities, enough
to model the converter's `isNaN` checks and comparisons faithfully.
-/

/-- A JavaScript number: NaN, `±Infinity` (`inf true` is `+Infinity`),
or a finite value modelled as an exact rational. -/
inductive JSNum where
  | nan : JSNum
  | inf : Bool → JSNum
  | num : ℚ → JSNum
  deriving DecidableEq, Repr

/-- JavaScript `isNaN`. -/
def jsIsNaN : JSNum → Bool
  | .nan => true
  | _ => false

/-- JavaScript falsiness of a number (`!x`): `0` and `NaN` are falsy. -/
def jsFalsy : JSNum → Bool
  | .nan => true
  | .num a => decide (a = 0)
  | _ => false

/-- JavaScript unary minus. -/
def jsNeg : JSNum → JSNum
  | .nan => .nan
  | .inf s => .inf (!s)
  | .num a => .num (-a)

/-- JavaScript addition. -/
def jsAdd : JSNum → JSNum → JSNum
  | .nan, _ => .nan
  | _, .nan => .nan
  | .inf s, .inf t => if s = t then .inf s else .nan
  | .inf s, .num _ => .inf s
  | .num _, .inf t => .inf t
  | .num a, .num b => .num (a + b)

/-- JavaScript subtraction. -/
def jsSub (a b : JSNum) : JSNum := jsAdd a (jsNeg b)

/-- JavaScript division (zero denominators follow the `+0` rules). -/
def jsDiv : JSNum → JSNum → JSNum
  | .nan, _ => .nan
  | _, .nan => .nan
  | .inf _, .inf _ => .nan
  | .inf s, .num b => .inf (s = decide (0 ≤ b))
  | .num _, .inf _ => .num 0
  | .num a, .num b =>
    if b = 0 then (if a = 0 then .nan else .inf (decide (0 ≤ a))) else .num (a / b)

/-- JavaScript `<` (false whenever either side is NaN). -/
def jsLT : JSNum → JSNum → Bool
  | .nan, _ => false
  | _, .nan => false
  | .inf s, .inf t => !s && t
  | .inf s, .num _ => !s
  | .num _, .inf t => t
  | .num a, .num b => decide (a < b)

/-- JavaScript `<=` (false whenever either side is NaN). -/
def jsLE : JSNum → JSNum → Bool
  | .nan, _ => false
  | _, .nan => false
  | .inf s, .inf t => !s || t
  | .inf s, .num _ => !s
  | .num _, .inf t => t
  | .num a, .num b => decide (a ≤ b)

/-! ### CoordinateConverter (src/lib/pdf/coordinates.ts) -/

/-- A box in PDF.js viewport (canvas pixel) coordinates, as received by
`convertBoxToPdfLib` (fields may be NaN or infinite). -/
structure JsBox where
  x : JSNum
  y : JSNum
  w : JSNum
  h : JSNum
  deriving DecidableEq, Repr

/-- A box in pdf-lib page coordinates (bottom-left origin). -/
structure PdfLibBox where
  x : JSNum
  y : JSNum
  width : JSNum
  height : JSNum
  deriving DecidableEq, Repr

/-- `convertBoxToPdfLib(box, pdfPageHeight, scale)`.

Returns the converted box together with a flag recording whether the
out-of-bounds `console.warn` fired; thrown errors are `Except.error`. -/
def convertBoxToPdfLib (box : JsBox) (pdfPageHeight scale : JSNum) :
    Except (List Char) (PdfLibBox × Bool) :=
  if jsFalsy scale || jsLE scale (.num 0) || jsIsNaN scale then
    .error ("Invalid scale factor".toList)
  else if jsIsNaN box.x then .error ("Invalid box.x".toList)
  else if jsIsNaN box.y then .error ("Invalid box.y".toList)
  else if jsIsNaN box.w then .error ("Invalid box.w".toList)
  else if jsIsNaN box.h then .error ("Invalid box.h".toList)
  else
    let x := jsDiv box.x scale
    let width := jsDiv box.w scale
    let height := jsDiv box.h scale
    let canvasY := jsDiv box.y scale
    let y := jsSub pdfPageHeight (jsAdd canvasY height)
    if jsIsNaN x || jsIsNaN y || jsIsNaN width || jsIsNaN height then
      .error ("Conversion produced NaN".toList)
    else
      .ok (⟨x, y, width, height⟩,
        jsLT y (.num 0) || jsLT pdfPageHeight y || jsLT x (.num 0))

/-- `convertBoxesToPdfLib`: convert a list of boxes, failing on the
first error (`boxes.map` with a thrown exception aborting the loop). -/
def convertBoxesToPdfLib (boxes : List JsBox) (pdfPageHeight scale : JSNum) :
    Except (List Char) (List (PdfLibBox × Bool)) :=
  boxes.mapM (fun b => convertBoxToPdfLib b pdfPageHeight scale)

/-- A box with exact rational coordinates (valid finite inputs). -/
structure QBox where
  x : ℚ
  y : ℚ
  w : ℚ
  h : ℚ
  deriving DecidableEq, Repr

/-- The pixel→PDF conversion on finite values, exactly as computed by
`convertBoxToPdfLib` (see `convertBoxToPdfLib_num`). -/
def pixelBoxToPdf (b : QBox) (pageHeightPoints scale : ℚ) : QBox :=
  ⟨b.x / scale,
   pageHeightPoints - (b.y / scale + b.h / scale),
   b.w / scale,
   b.h / scale⟩

/-- Modelled from the spec: `pdfBoxToPixel` (§4.4).  The PDF→pixel
direction of the CoordinateConverter contract is not present in the
repository snapshot (only the pixel→PDF direction, in
src/lib/pdf/coordinates.ts), so it is taken from the spec's algorithm:
invert `pdfX = pixelX / S`, `pdfW = pixelW / S`, `pdfH = pixelH / S`,
`pdfY = pageHeightPoints - (pixelY / S + pdfH)`. -/
def pdfBoxToPixel (b : QBox) (pageHeightPoints scale : ℚ) : QBox :=
  ⟨b.x * scale,
   (pageHeightPoints - (b.y + b.h)) * scale,
   b.w * scale,
   b.h * scale⟩

/-! ### PDF export (src/lib/pdf/export.ts)

A pdf-lib document is modelled as its list of pages; a page is its
media-box size together with the list of content operators, which is
what distinguishes text-showing content from raster images and drawn
rectangles.
-/

/-- A PDF page content operator. -/
inductive PdfOp where
  | showText : List Char → PdfOp
  | drawImage : JSNum → JSNum → JSNum → JSNum → PdfOp
  | drawRect : JSNum → JSNum → JSNum → JSNum → PdfOp
  deriving DecidableEq, Repr

/-- A PDF page: size in points plus content operators. -/
structure PdfPage where
  width : ℚ
  height : ℚ
  ops : List PdfOp
  deriving DecidableEq, Repr

/-- `exportPdfFromCanvases`: one fresh page per canvas, containing only
the embedded PNG of that canvas drawn to fill the page. -/
def exportPdfFromCanvases (canvases : List (ℚ × ℚ)) : List PdfPage :=
  canvases.map (fun c =>
    ⟨c.1, c.2, [PdfOp.drawImage (.num 0) (.num 0) (.num c.1) (.num c.2)]⟩)

/-- Boxes registered for page `i` in the `Map<number, Box[]>` argument
(`pageBoxes.get(pageIndex)`, missing page means no boxes). -/
def pageBoxesAt (pageBoxes : List (Nat × List JsBox)) (i : Nat) : List JsBox :=
  match pageBoxes.find? (fun p => p.1 = i) with
  | some p => p.2
  | none => []

/-- Draw a converted redaction rectangle (opaque black). -/
def rectOfPdfLibBox (b : PdfLibBox) : PdfOp :=
  PdfOp.drawRect b.x b.y b.width b.height

/-- Process one page of `exportPdfWithRedactionBoxes`: convert that
page's boxes and draw them on top of the page's existing content. -/
def redactPdfPage (scale : JSNum) (boxes : List JsBox) (page : PdfPage) :
    Except (List Char) PdfPage :=
  if boxes.isEmpty then .ok page
  else
    match convertBoxesToPdfLib boxes (.num page.height) scale with
    | .error e => .error e
    | .ok converted =>
      .ok ⟨page.width, page.height,
        page.ops ++ converted.map (fun p => rectOfPdfLibBox p.1)⟩

/-- Page-by-page loop of `exportPdfWithRedactionBoxes` starting at page
index `i`: the original pages are kept and rectangles are drawn over
them. -/
def redactPdfPagesFrom (pageBoxes : List (Nat × List JsBox)) (scale : JSNum) :
    Nat → List PdfPage → Except (List Char) (List PdfPage)
  | _, [] => .ok []
  | i, page :: rest =>
    match redactPdfPage scale (pageBoxesAt pageBoxes i) page with
    | .error e => .error e
    | .ok page' =>
      match redactPdfPagesFrom pageBoxes scale (i + 1) rest with
      | .error e => .error e
      | .ok rest' => .ok (page' :: rest')

/-- `exportPdfWithRedactionBoxes(originalPdfBytes, pageBoxes, scale)`:
load the original document, draw opaque black rectangles over each
page with registered boxes, and save.  The original page content
(including any text operators) is retained. -/
def exportPdfWithRedactionBoxes (origPages : List PdfPage)
    (pageBoxes : List (Nat × List JsBox)) (scale : JSNum) :
    Except (List Char) (List PdfPage) :=
  if origPages.isEmpty then .error ("Invalid PDF bytes: empty or null".toList)
  else if jsLE scale (.num 0) then .error ("Invalid scale factor".toList)
  else redactPdfPagesFrom pageBoxes scale 0 origPages

/-! ### Payment-card detection (src/lib/detect/patterns.ts `findLikelyPANs`) -/

/-- Modelled from the spec: `luhnCheck` (src/lib/detect/luhn.ts is not
present in the repository snapshot; §4.1/§8 give the algorithm: double
every second digit from the right, subtract 9 if the result exceeds 9,
sum all digits, valid iff the sum mod 10 is 0). -/
def luhnDouble (d : Nat) : Nat :=
  if 2 * d > 9 then 2 * d - 9 else 2 * d

/-- Luhn sum over digits listed right-to-left; `dbl` tells whether the
head digit is in a doubled position. -/
def luhnSumRev : List Nat → Bool → Nat
  | [], _ => 0
  | d :: ds, dbl => (if dbl then luhnDouble d else d) + luhnSumRev ds (!dbl)

/-- Modelled from the spec: `luhnCheck` on a digit string (the
rightmost digit is not doubled). -/
def luhnCheck (s : List Char) : Bool :=
  !s.isEmpty && s.all Char.isDigit &&
    decide (luhnSumRev (s.reverse.map (fun c => c.toNat - 48)) false % 10 = 0)

/-- `s.replace(/[ -]/g, '')`. -/
def stripSeps (s : List Char) : List Char :=
  s.filter (fun c => !(c = ' ' || c = '-'))

/-- The `.map(strip).filter(len ∧ luhn)` pipeline of `findLikelyPANs`
applied to the regex candidates. -/
def panFilter (cands : List (List Char)) : List (List Char) :=
  (cands.map stripSeps).filter
    (fun d => decide (13 ≤ d.length) && decide (d.length ≤ 19) && luhnCheck d)

/-- ASCII word character (JavaScript `\w`, for `\b`). -/
def isWordCh (c : Char) : Bool := c.isAlpha || c.isDigit || c = '_'

/-- JavaScript `\b` between an optional previous character and an
optional next character. -/
def boundaryB (a b : Option Char) : Bool :=
  (match a with | some c => isWordCh c | none => false) !=
    (match b with | some c => isWordCh c | none => false)

/-- Candidate separator (`[ -]`). -/
def isSepCh (c : Char) : Bool := c = ' ' || c = '-'

/-- Backtracking matcher for the tail of `\b(?:\d[ -]?){13,19}\b` at
the current position: `reps` repetitions already consumed, `lastC` the
last consumed character.  Returns the number of further characters
consumed.  Greedy: more repetitions are preferred, and within a
repetition consuming the optional separator is preferred. -/
def tryReps (cs : List Char) (reps : Nat) (lastC : Char) : Option Nat :=
  (if reps < 19 then
    match cs with
    | c :: rest =>
      if c.isDigit then
        (match rest with
         | s :: rest2 =>
           if isSepCh s then (tryReps rest2 (reps + 1) s).map (· + 2) else none
         | [] => none)
        <|> (tryReps rest (reps + 1) c).map (· + 1)
      else none
    | [] => none
  else none)
  <|> (if 13 ≤ reps && boundaryB (some lastC) cs.head? then some 0 else none)
termination_by cs.length
decreasing_by
  all_goals simp only [List.length_cons]
  all_goals omega

/-- The global scan of `text.match(/\b(?:\d[ -]?){13,19}\b/g)`: find
each leftmost match (starting at a word boundary) and resume after it.
`prev` is the character before the current position. -/
def panScan : Option Char → List Char → List (List Char)
  | _, [] => []
  | prev, c :: rest =>
    if !boundaryB prev (some c) || !c.isDigit then panScan (some c) rest
    else
      match tryReps (c :: rest) 0 ' ' with
      | some len => ((c :: rest).take len) :: panScan ((c :: rest).take len).getLast? (rest.drop (len - 1))
      | none => panScan (some c) rest
termination_by _ cs => cs.length
decreasing_by
  all_goals simp only [List.length_cons, List.length_drop]
  all_goals omega

/-- `findLikelyPANs(text)`: regex candidates, separator stripping,
length and Luhn filtering. -/
def findLikelyPANs (text : List Char) : List (List Char) :=
  panFilter (panScan none text)

/-! ### DetectionMerger

Modelled from the spec: src/lib/detect/merger.ts is not present in the
repository snapshot (only its callers and tests), so `mergeDetections`
is built from §4.2's algorithm: regex detections are kept unless
strictly superseded, each ML detection is dropped when an overlapping
same-type regex detection of at least its confidence exists, a kept
regex detection whose span is strictly contained in an overlapping
same-type ML span is expanded to that span, both inputs are sorted
canonically before comparing (the spec's determinism instruction), and
the output is deduplicated by the (text, type) pair.
-/

/-- Detection source. -/
inductive DSource where
  | regex : DSource
  | ml : DSource
  | hybrid : DSource
  deriving DecidableEq, Repr

/-- A PII match prior to visual placement (§3 Detection). -/
structure Detection where
  text : String
  dtype : String
  conf : ℚ
  dsource : DSource
  dstart : Nat
  dstop : Nat
  deriving DecidableEq, Repr

/-- Rank of a source for the canonical order. -/
def srcRank : DSource → Nat
  | .regex => 0
  | .ml => 1
  | .hybrid => 2

/-- Canonical (injective) sort key of a detection. -/
def detKey (d : Detection) :
    Lex (Nat × Lex (Nat × Lex (String × Lex (String × Lex (ℚ × Nat))))) :=
  toLex (d.dstart, toLex (d.dstop, toLex (d.text, toLex (d.dtype, toLex (d.conf, srcRank d.dsource)))))

/-- The canonical order on detections. -/
def detLE (a b : Detection) : Prop := detKey a ≤ detKey b

instance : DecidableRel detLE := by
  unfold detLE; infer_instance

/-- Canonical sort (the spec's "sort before comparing"). -/
def sortDets (l : List Detection) : List Detection :=
  List.insertionSort detLE l

/-- Character-offset overlap of two detections. -/
def overlapsDet (a b : Detection) : Bool :=
  decide (max a.dstart b.dstart < min a.dstop b.dstop)

/-- An ML detection strictly supersedes an overlapping same-type regex
detection only with strictly greater confidence. -/
def mlSupersedes (r m : Detection) : Bool :=
  overlapsDet r m && r.dtype == m.dtype && decide (r.conf < m.conf)

/-- Step 1: a regex detection is always kept unless exactly superseded. -/
def keepRegex (mls : List Detection) (r : Detection) : Bool :=
  !(mls.any (mlSupersedes r))

/-- Steps 2–4: an ML detection is dropped exactly when some overlapping
same-type regex detection has at least its confidence. -/
def keepMl (regexs : List Detection) (m : Detection) : Bool :=
  !(regexs.any (fun r => overlapsDet r m && r.dtype == m.dtype && decide (m.conf ≤ r.conf)))

/-- Step 3 (span expansion): when an overlapping same-type ML span
strictly contains a kept regex span, expand to the larger span. -/
def expandSpan (mls : List Detection) (r : Detection) : Detection :=
  match mls.find? (fun m =>
      overlapsDet r m && m.dtype == r.dtype &&
      decide (m.dstart ≤ r.dstart) && decide (r.dstop ≤ m.dstop) &&
      (decide (m.dstart < r.dstart) || decide (r.dstop < m.dstop))) with
  | some m => ⟨r.text, r.dtype, r.conf, .hybrid, m.dstart, m.dstop⟩
  | none => r

/-- Step 5: deduplicate by the (text, type) pair, keeping the first. -/
def dedupTT : List Detection → List Detection
  | [] => []
  | d :: rest =>
    d :: dedupTT (rest.filter (fun e => !(e.text == d.text && e.dtype == d.dtype)))
termination_by l => l.length
decreasing_by
  have := List.length_filter_le (fun e => !(e.text == d.text && e.dtype == d.dtype)) rest
  simp only [List.length_cons]
  omega

/-- Modelled from the spec: `merge(regexResults, mlResults)` (§4.2). -/
def mergeDetections (regexResults mlResults : List Detection) : List Detection :=
  let ra := sortDets regexResults
  let mb := sortDets mlResults
  dedupTT (sortDets ((ra.filter (keepRegex mb)).map (expandSpan mb) ++ mb.filter (keepMl ra)))

/-! ### mergeOverlappingBoxes (src/lib/formats/base/DocumentFormat.ts) -/

/-- `boxesOverlap(a, b)`: rectangles overlap or touch. -/
def boxesOverlap (a b : BoundingBox) : Bool :=
  !(decide (a.x + a.w < b.x) || decide (b.x + b.w < a.x) ||
    decide (a.y + a.h < b.y) || decide (b.y + b.h < a.y))

/-- JavaScript `a || b` on optional values (first defined wins). -/
def jsOrOpt {α : Type} : Option α → Option α → Option α
  | some a, _ => some a
  | none, b => b

/-- `a.confidence || 1.0` (confidence `0` is falsy and becomes `1.0`). -/
def confOrOne : Option ℚ → ℚ
  | some q => if q = 0 then 1 else q
  | none => 1

/-- `mergeTwoBoxes(a, b)`: the axis-aligned union rectangle. -/
def mergeTwoBoxes (a b : BoundingBox) : BoundingBox :=
  ⟨min a.x b.x, min a.y b.y,
   max (a.x + a.w) (b.x + b.w) - min a.x b.x,
   max (a.y + a.h) (b.y + b.h) - min a.y b.y,
   a.text ++ (if a.text ≠ [] ∧ b.text ≠ [] then [' '] else []) ++ b.text,
   a.page, none, none, none,
   jsOrOpt a.btype b.btype, jsOrOpt a.source b.source,
   some (min (confOrOne a.confidence) (confOrOne b.confidence))⟩

/-- Order used by `sort((a, b) => a.x - b.x)`. -/
def boxXLE (a b : BoundingBox) : Prop := a.x ≤ b.x

instance : DecidableRel boxXLE := by
  unfold boxXLE; infer_instance

/-- The sweep of `mergeOverlappingBoxes`: `current` absorbs each next
box that overlaps it and is pushed when one does not. -/
def mergeSweep : BoundingBox → List BoundingBox → List BoundingBox
  | current, [] => [current]
  | current, next :: rest =>
    if boxesOverlap current next then mergeSweep (mergeTwoBoxes current next) rest
    else current :: mergeSweep next rest

/-- `mergeOverlappingBoxes(boxes)`. -/
def mergeOverlappingBoxes (boxes : List BoundingBox) : List BoundingBox :=
  match List.insertionSort boxXLE boxes with
  | [] => []
  | b :: rest => mergeSweep b rest

/-- Geometric containment of box `b` inside box `m`. -/
def containsBox (m b : BoundingBox) : Prop :=
  m.x ≤ b.x ∧ m.y ≤ b.y ∧ b.x + b.w ≤ m.x + m.w ∧ b.y + b.h ≤ m.y + m.h

/-! ## Theorems -/

/-! ### CoordinateConverter -/

/-- On finite inputs with positive scale, `convertBoxToPdfLib` succeeds
and returns exactly the §4.4 formulas; the warning flag records the
out-of-bounds test. -/
theorem convert_num_ok (qx qy qw qh H S : ℚ) (hS : 0 < S) :
    convertBoxToPdfLib ⟨.num qx, .num qy, .num qw, .num qh⟩ (.num H) (.num S) =
      .ok (⟨.num (qx / S), .num (H - (qy / S + qh / S)), .num (qw / S), .num (qh / S)⟩,
        decide (H - (qy / S + qh / S) < 0) || decide (H < H - (qy / S + qh / S)) ||
          decide (qx / S < 0)) := by
  have hS0 : S ≠ 0 := ne_of_gt hS
  have hSle : ¬S ≤ 0 := not_le.mpr hS
  simp [convertBoxToPdfLib, jsFalsy, jsIsNaN, jsLE, jsDiv, jsAdd, jsSub, jsNeg, jsLT,
    hS0, hSle, sub_eq_add_neg]

/-- C4: for every finite box and scale `S > 0`, the pixel→PDF
conversion returns exactly `pdfX = pixelX / S`, `pdfWidth = pixelW / S`,
`pdfHeight = pixelH / S` and
`pdfY = pageHeightPoints - (pixelY / S + pdfHeight)`. -/
theorem C4_pixel_to_pdf_formula (qx qy qw qh H S : ℚ) (hS : 0 < S) :
    ∃ warned,
      convertBoxToPdfLib ⟨.num qx, .num qy, .num qw, .num qh⟩ (.num H) (.num S) =
        .ok (⟨.num (qx / S), .num (H - (qy / S + qh / S)), .num (qw / S), .num (qh / S)⟩,
          warned) :=
  ⟨_, convert_num_ok qx qy qw qh H S hS⟩

/-- Witness for C4 at box (10, 20, 30, 40), page height 100, scale 2. -/
theorem C4_pixel_to_pdf_formula_witness :
    ∃ warned,
      convertBoxToPdfLib ⟨.num 10, .num 20, .num 30, .num 40⟩ (.num 100) (.num 2) =
        .ok (⟨.num (10 / 2), .num (100 - (20 / 2 + 40 / 2)), .num (30 / 2), .num (40 / 2)⟩,
          warned) :=
  C4_pixel_to_pdf_formula 10 20 30 40 100 2 (by norm_num)

/-- C5 counterexample: a box whose `x` is `+Infinity` (not a finite
number) is not rejected — the converter returns it unchanged instead of
throwing, because the code checks only `isNaN`, not finiteness. -/
theorem C5_counterexample_infinite_coordinate :
    convertBoxToPdfLib ⟨.inf true, .num 0, .num 0, .num 0⟩ (.num 100) (.num 1) =
      .ok (⟨.inf true, .num 100, .num 0, .num 0⟩, false) := by
  simp [convertBoxToPdfLib, jsFalsy, jsIsNaN, jsLE, jsDiv, jsAdd, jsSub, jsNeg, jsLT]
  norm_num

/-- C5 (amended): the converter throws when the scale factor is `≤ 0`
(including `-Infinity`) or NaN, and when any of the four box
coordinates is NaN; coordinates that are `±Infinity` are not rejected.
When the inputs are finite, the scale is positive and the computed
`pdfY` falls outside `[0, pageHeightPoints]`, the box is flagged
(the warning flag is set) but still returned rather than dropped. -/
theorem C5_convert_error_handling :
    (∀ (box : JsBox) (H S : JSNum), jsLE S (.num 0) = true ∨ jsIsNaN S = true →
      ∃ e, convertBoxToPdfLib box H S = .error e) ∧
    (∀ (box : JsBox) (H S : JSNum),
      box.x = .nan ∨ box.y = .nan ∨ box.w = .nan ∨ box.h = .nan →
      ∃ e, convertBoxToPdfLib box H S = .error e) ∧
    (∀ (qx qy qw qh H S : ℚ), 0 < S →
      (H - (qy / S + qh / S) < 0 ∨ H < H - (qy / S + qh / S)) →
      convertBoxToPdfLib ⟨.num qx, .num qy, .num qw, .num qh⟩ (.num H) (.num S) =
        .ok (⟨.num (qx / S), .num (H - (qy / S + qh / S)), .num (qw / S), .num (qh / S)⟩,
          true)) := by
  refine ⟨?_, ?_, ?_⟩
  · intro box H S hs
    unfold convertBoxToPdfLib
    rcases hs with hs | hs <;> simp [hs]
  · intro box H S hb
    unfold convertBoxToPdfLib
    by_cases hsc : (jsFalsy S || jsLE S (.num 0) || jsIsNaN S) = true
    · simp [hsc]
    · rcases hb with hb | hb | hb | hb <;>
        simp [hsc, hb, jsIsNaN] <;>
        (repeat' split) <;> simp
  · intro qx qy qw qh H S hS hout
    rw [convert_num_ok qx qy qw qh H S hS]
    rcases hout with h | h <;> simp [h]

/-- Witness for C5 at concrete inputs: scale 0 rejected; NaN `y`
rejected; a box whose converted `pdfY` is negative is returned with the
warning flag. -/
theorem C5_convert_error_handling_witness :
    (∃ e, convertBoxToPdfLib ⟨.num 1, .num 2, .num 3, .num 4⟩ (.num 100) (.num 0) = .error e) ∧
    (∃ e, convertBoxToPdfLib ⟨.num 1, .nan, .num 3, .num 4⟩ (.num 100) (.num 2) = .error e) ∧
    convertBoxToPdfLib ⟨.num 10, .num 300, .num 30, .num 40⟩ (.num 100) (.num 1) =
      .ok (⟨.num (10 / 1), .num (100 - (300 / 1 + 40 / 1)), .num (30 / 1), .num (40 / 1)⟩,
        true) :=
  ⟨C5_convert_error_handling.1 ⟨.num 1, .num 2, .num 3, .num 4⟩ (.num 100) (.num 0)
      (Or.inl (by decide)),
   C5_convert_error_handling.2.1 ⟨.num 1, .nan, .num 3, .num 4⟩ (.num 100) (.num 2)
      (Or.inr (Or.inl rfl)),
   C5_convert_error_handling.2.2 10 300 30 40 100 1 (by norm_num) (by norm_num)⟩

/-- C6: the CoordinateConverter round-trip law.  `convertBoxToPdfLib`
computes exactly `pixelBoxToPdf`, and composing with the spec's inverse
`pdfBoxToPixel` recovers the original box within 1e-6 in every
coordinate (the model computes with exact rationals, so the round trip
is exact). -/
theorem C6_coordinate_roundtrip (b : QBox) (H S : ℚ) (hS : 0 < S) :
    (∃ warned,
      convertBoxToPdfLib ⟨.num b.x, .num b.y, .num b.w, .num b.h⟩ (.num H) (.num S) =
        .ok (⟨.num (pixelBoxToPdf b H S).x, .num (pixelBoxToPdf b H S).y,
              .num (pixelBoxToPdf b H S).w, .num (pixelBoxToPdf b H S).h⟩, warned)) ∧
    |(pdfBoxToPixel (pixelBoxToPdf b H S) H S).x - b.x| ≤ 1 / 1000000 ∧
    |(pdfBoxToPixel (pixelBoxToPdf b H S) H S).y - b.y| ≤ 1 / 1000000 ∧
    |(pdfBoxToPixel (pixelBoxToPdf b H S) H S).w - b.w| ≤ 1 / 1000000 ∧
    |(pdfBoxToPixel (pixelBoxToPdf b H S) H S).h - b.h| ≤ 1 / 1000000 := by
  have hS0 : S ≠ 0 := ne_of_gt hS
  constructor
  · exact ⟨_, convert_num_ok b.x b.y b.w b.h H S hS⟩
  · have hx : (pdfBoxToPixel (pixelBoxToPdf b H S) H S).x = b.x := by
      simp [pdfBoxToPixel, pixelBoxToPdf]; field_simp
    have hy : (pdfBoxToPixel (pixelBoxToPdf b H S) H S).y = b.y := by
      simp [pdfBoxToPixel, pixelBoxToPdf]; field_simp; ring
    have hw : (pdfBoxToPixel (pixelBoxToPdf b H S) H S).w = b.w := by
      simp [pdfBoxToPixel, pixelBoxToPdf]; field_simp
    have hh : (pdfBoxToPixel (pixelBoxToPdf b H S) H S).h = b.h := by
      simp [pdfBoxToPixel, pixelBoxToPdf]; field_simp
    rw [hx, hy, hw, hh]
    norm_num

/-! ### PDF export -/

/-- Unfolding `redactPdfPage`: the input page's size is kept and its
operators are retained as a prefix of the output page's operators. -/
theorem redactPdfPage_retains {scale : JSNum} {bs : List JsBox} {p p' : PdfPage}
    (h : redactPdfPage scale bs p = .ok p') :
    p.width = p'.width ∧ p.height = p'.height ∧ ∃ extra, p'.ops = p.ops ++ extra := by
  unfold redactPdfPage at h
  by_cases hbs : bs.isEmpty = true
  · simp only [hbs, if_true] at h
    simp at h
    subst h
    exact ⟨rfl, rfl, [], by simp⟩
  · simp only [hbs, if_false, Bool.false_eq_true] at h
    rcases hconv : convertBoxesToPdfLib bs (.num p.height) scale with e | converted
    · rw [hconv] at h; exact absurd h (by simp)
    · rw [hconv] at h
      simp at h
      subst h
      exact ⟨rfl, rfl, _, rfl⟩

/-- The page loop of `exportPdfWithRedactionBoxes` preserves page count,
page sizes, and the original operators of every page. -/
theorem redactPdfPagesFrom_retains {pb : List (Nat × List JsBox)} {scale : JSNum} :
    ∀ {i : Nat} {pages pages' : List PdfPage},
      redactPdfPagesFrom pb scale i pages = .ok pages' →
      List.Forall₂
        (fun o n => o.width = n.width ∧ o.height = n.height ∧ ∃ extra, n.ops = o.ops ++ extra)
        pages pages' := by
  intro i pages
  induction pages generalizing i with
  | nil =>
    intro pages' h
    unfold redactPdfPagesFrom at h
    simp at h
    subst h
    exact List.Forall₂.nil
  | cons p rest ih =>
    intro pages' h
    unfold redactPdfPagesFrom at h
    rcases h1 : redactPdfPage scale (pageBoxesAt pb i) p with e | p'
    · rw [h1] at h; exact absurd h (by simp)
    · rw [h1] at h
      rcases h2 : redactPdfPagesFrom pb scale (i + 1) rest with e | rest'
      · rw [h2] at h; exact absurd h (by simp)
      · rw [h2] at h
        simp at h
        subst h
        exact List.Forall₂.cons (redactPdfPage_retains h1) (ih h2)

/-- C1 counterexample: `exportPdfWithRedactionBoxes` draws an opaque
rectangle over a page that retains its original text-showing operator,
so this PDF export's page content is not solely raster images and the
covered text is still present in the output. -/
theorem C1_counterexample_text_layer_retained :
    ∃ pages,
      exportPdfWithRedactionBoxes
          [⟨600, 800, [PdfOp.showText (("SSN 123-45-6789").toList)]⟩]
          [(0, [⟨.num 10, .num 10, .num 100, .num 20⟩])] (.num 2) = .ok pages ∧
      ∃ p ∈ pages, PdfOp.showText (("SSN 123-45-6789").toList) ∈ p.ops := by
  refine ⟨[⟨600, 800, [PdfOp.showText (("SSN 123-45-6789").toList),
      PdfOp.drawRect (.num 5) (.num 785) (.num 50) (.num 10)]⟩], ?_, ?_⟩
  · have h1 : convertBoxToPdfLib ⟨.num 10, .num 10, .num 100, .num 20⟩ (.num 800) (.num 2) =
        .ok (⟨.num 5, .num 785, .num 50, .num 10⟩, false) := by
      rw [convert_num_ok 10 10 100 20 800 2 (by norm_num)]
      norm_num
    norm_num [exportPdfWithRedactionBoxes, redactPdfPagesFrom, redactPdfPage, pageBoxesAt,
      convertBoxesToPdfLib, jsLE, rectOfPdfLibBox, h1, List.mapM.loop]
  · simp

/-- C1 (amended): `exportPdfFromCanvases` produces a document whose
page content is solely embedded raster images (one full-page image per
page, no text-showing operators); `exportPdfWithRedactionBoxes`, by
contrast, retains the original page content — including any
text-showing operators — and merely appends opaque rectangles, so PDF
redaction through that path does keep the original text layer. -/
theorem C1_pdf_export_content :
    (∀ canvases : List (ℚ × ℚ),
      (exportPdfFromCanvases canvases).length = canvases.length ∧
      ∀ p ∈ exportPdfFromCanvases canvases,
        p.ops = [PdfOp.drawImage (.num 0) (.num 0) (.num p.width) (.num p.height)] ∧
        ∀ s, PdfOp.showText s ∉ p.ops) ∧
    (∀ (orig : List PdfPage) (pb : List (Nat × List JsBox)) (scale : JSNum)
        (pages' : List PdfPage),
      exportPdfWithRedactionBoxes orig pb scale = .ok pages' →
      List.Forall₂
        (fun o n => o.width = n.width ∧ o.height = n.height ∧ ∃ extra, n.ops = o.ops ++ extra)
        orig pages') := by
  constructor
  · intro canvases
    constructor
    · simp [exportPdfFromCanvases]
    · intro p hp
      unfold exportPdfFromCanvases at hp
      rcases List.mem_map.mp hp with ⟨c, _, rfl⟩
      constructor
      · rfl
      · intro s
        simp
  · intro orig pb scale pages' h
    unfold exportPdfWithRedactionBoxes at h
    by_cases h0 : orig.isEmpty
    · simp [h0] at h
    · by_cases h1 : jsLE scale (.num 0) = true
      · simp [h0, h1] at h
      · simp [h0, h1] at h
        exact redactPdfPagesFrom_retains h

/-- Witness for C1's amended statement at a one-canvas export and the
concrete redaction-box export of the counterexample's input. -/
theorem C1_pdf_export_content_witness :
    ((exportPdfFromCanvases [((600 : ℚ), (800 : ℚ))]).length = 1 ∧
      ∀ p ∈ exportPdfFromCanvases [((600 : ℚ), (800 : ℚ))],
        p.ops = [PdfOp.drawImage (.num 0) (.num 0) (.num p.width) (.num p.height)] ∧
        ∀ s, PdfOp.showText s ∉ p.ops) ∧
    List.Forall₂
      (fun (o n : PdfPage) =>
        o.width = n.width ∧ o.height = n.height ∧ ∃ extra, n.ops = o.ops ++ extra)
      [⟨600, 800, [PdfOp.showText (("SSN 123-45-6789").toList)]⟩]
      [⟨600, 800, [PdfOp.showText (("SSN 123-45-6789").toList),
        PdfOp.drawRect (.num 5) (.num 785) (.num 50) (.num 10)]⟩] := by
  constructor
  · exact (C1_pdf_export_content.1 [((600 : ℚ), (800 : ℚ))])
  · apply C1_pdf_export_content.2
      [⟨600, 800, [PdfOp.showText (("SSN 123-45-6789").toList)]⟩]
      [(0, [⟨.num 10, .num 10, .num 100, .num 20⟩])] (.num 2)
    have h1 : convertBoxToPdfLib ⟨.num 10, .num 10, .num 100, .num 20⟩ (.num 800) (.num 2) =
        .ok (⟨.num 5, .num 785, .num 50, .num 10⟩, false) := by
      rw [convert_num_ok 10 10 100 20 800 2 (by norm_num)]
      norm_num
    norm_num [exportPdfWithRedactionBoxes, redactPdfPagesFrom, redactPdfPage, pageBoxesAt,
      convertBoxesToPdfLib, jsLE, rectOfPdfLibBox, h1, List.mapM.loop]

/-- Witness for C6 at box (7, 11, 13, 17), page height 200, scale 3. -/
theorem C6_coordinate_roundtrip_witness :
    (∃ warned,
      convertBoxToPdfLib ⟨.num (7 : ℚ), .num 11, .num 13, .num 17⟩ (.num 200) (.num 3) =
        .ok (⟨.num (pixelBoxToPdf ⟨7, 11, 13, 17⟩ 200 3).x,
              .num (pixelBoxToPdf ⟨7, 11, 13, 17⟩ 200 3).y,
              .num (pixelBoxToPdf ⟨7, 11, 13, 17⟩ 200 3).w,
              .num (pixelBoxToPdf ⟨7, 11, 13, 17⟩ 200 3).h⟩, warned)) ∧
    |(pdfBoxToPixel (pixelBoxToPdf ⟨7, 11, 13, 17⟩ 200 3) 200 3).x - (7 : ℚ)| ≤ 1 / 1000000 ∧
    |(pdfBoxToPixel (pixelBoxToPdf ⟨7, 11, 13, 17⟩ 200 3) 200 3).y - (11 : ℚ)| ≤ 1 / 1000000 ∧
    |(pdfBoxToPixel (pixelBoxToPdf ⟨7, 11, 13, 17⟩ 200 3) 200 3).w - (13 : ℚ)| ≤ 1 / 1000000 ∧
    |(pdfBoxToPixel (pixelBoxToPdf ⟨7, 11, 13, 17⟩ 200 3) 200 3).h - (17 : ℚ)| ≤ 1 / 1000000 :=
  C6_coordinate_roundtrip ⟨7, 11, 13, 17⟩ 200 3 (by norm_num)

/-! ### CSV cell redaction -/

theorem getElem?_updateAt {α : Type} (l : List α) (i j : Nat) (f : α → α) :
    (updateAt l i f)[j]? = if i = j then (l[j]?).map f else l[j]? := by
  induction l generalizing i j with
  | nil => simp [updateAt]
  | cons x xs ih =>
    cases i with
    | zero => cases j <;> simp [updateAt]
    | succ n =>
      cases j with
      | zero => simp [updateAt]
      | succ m => simpa [updateAt] using ih n m

theorem length_updateAt {α : Type} (l : List α) (i : Nat) (f : α → α) :
    (updateAt l i f).length = l.length := by
  induction l generalizing i with
  | nil => simp [updateAt]
  | cons x xs ih => cases i <;> simp [updateAt, ih]

theorem firstDedup_cons (k : Nat × Nat) (rest : List (Nat × Nat)) :
    firstDedup (k :: rest) = k :: firstDedup (rest.filter (fun j => j ≠ k)) := by
  rw [firstDedup]

theorem mem_firstDedup_aux :
    ∀ (n : Nat) (l : List (Nat × Nat)), l.length ≤ n → ∀ k, (k ∈ firstDedup l ↔ k ∈ l) := by
  intro n
  induction n with
  | zero =>
    intro l hl k
    have : l = [] := List.eq_nil_of_length_eq_zero (Nat.le_zero.mp hl)
    subst this
    rw [firstDedup]
  | succ n ih =>
    intro l hl k
    cases l with
    | nil => rw [firstDedup]
    | cons j rest =>
      rw [firstDedup_cons, List.mem_cons, List.mem_cons]
      have hlen : (rest.filter (fun x => x ≠ j)).length ≤ n := by
        have := List.length_filter_le (fun x => decide (x ≠ j)) rest
        simp at hl
        omega
      rw [ih _ hlen k]
      by_cases hkj : k = j
      · simp [hkj]
      · simp [hkj, List.mem_filter]

theorem mem_firstDedup (l : List (Nat × Nat)) (k : Nat × Nat) :
    k ∈ firstDedup l ↔ k ∈ l :=
  mem_firstDedup_aux l.length l le_rfl k

theorem firstDedup_nodup_aux :
    ∀ (n : Nat) (l : List (Nat × Nat)), l.length ≤ n → (firstDedup l).Nodup := by
  intro n
  induction n with
  | zero =>
    intro l hl
    have : l = [] := List.eq_nil_of_length_eq_zero (Nat.le_zero.mp hl)
    subst this
    rw [firstDedup]
    exact List.nodup_nil
  | succ n ih =>
    intro l hl
    cases l with
    | nil => rw [firstDedup]; exact List.nodup_nil
    | cons j rest =>
      rw [firstDedup_cons]
      have hlen : (rest.filter (fun x => x ≠ j)).length ≤ n := by
        have := List.length_filter_le (fun x => decide (x ≠ j)) rest
        simp at hl
        omega
      refine List.Nodup.cons ?_ (ih _ hlen)
      intro hj
      have := (mem_firstDedup_aux n _ hlen j).mp hj
      simp [List.mem_filter] at this

theorem firstDedup_nodup (l : List (Nat × Nat)) : (firstDedup l).Nodup :=
  firstDedup_nodup_aux l.length l le_rfl

theorem cellAt_updateCell_other (data : List (List (List Char))) (k1 k2 r c : Nat)
    (h : ¬(k1 = r ∧ k2 = c)) :
    cellAt (updateAt data k1 (fun row => updateAt row k2 redactCell)) r c =
      cellAt data r c := by
  unfold cellAt
  rw [getElem?_updateAt]
  by_cases h1 : k1 = r
  · subst h1
    have h2 : ¬k2 = c := fun hc => h ⟨rfl, hc⟩
    simp only [if_pos rfl]
    cases data[k1]? with
    | none => rfl
    | some row => simp [getElem?_updateAt, h2]
  · simp [h1]

theorem cellAt_updateCell_same (data : List (List (List Char))) (r c : Nat) :
    cellAt (updateAt data r (fun row => updateAt row c redactCell)) r c =
      (cellAt data r c).map redactCell := by
  unfold cellAt
  rw [getElem?_updateAt]
  simp only [if_pos rfl]
  cases data[r]? with
  | none => rfl
  | some row => simp [getElem?_updateAt]

theorem cellAt_csvApplyKeys_not_mem (keys : List (Nat × Nat)) :
    ∀ (data : List (List (List Char))) (r c : Nat), (r, c) ∉ keys →
      cellAt (csvApplyKeys data keys) r c = cellAt data r c := by
  induction keys with
  | nil => intro data r c _; rfl
  | cons k rest ih =>
    intro data r c h
    have hk : k ≠ (r, c) := fun he => h (he ▸ List.mem_cons_self k rest)
    have hrest : (r, c) ∉ rest := fun hm => h (List.mem_cons_of_mem k hm)
    unfold csvApplyKeys at ih ⊢
    simp only [List.foldl_cons]
    rw [ih _ r c hrest]
    apply cellAt_updateCell_other
    intro ⟨h1, h2⟩
    exact hk (Prod.ext h1 h2)

theorem cellAt_csvApplyKeys_mem (keys : List (Nat × Nat)) :
    ∀ (data : List (List (List Char))) (r c : Nat),
      (r, c) ∈ keys → keys.Nodup →
      cellAt (csvApplyKeys data keys) r c = (cellAt data r c).map redactCell := by
  induction keys with
  | nil => intro data r c h _; exact absurd h (List.not_mem_nil _)
  | cons k rest ih =>
    intro data r c hmem hnd
    unfold csvApplyKeys at ih ⊢
    simp only [List.foldl_cons]
    rcases List.mem_cons.mp hmem with rfl | hrest
    · have hnotin : (r, c) ∉ rest := (List.nodup_cons.mp hnd).1
      have hskip := cellAt_csvApplyKeys_not_mem rest
        (updateAt data r (fun row => updateAt row c redactCell)) r c hnotin
      unfold csvApplyKeys at hskip
      rw [show ((r, c).1 : Nat) = r from rfl, show ((r, c).2 : Nat) = c from rfl]
      rw [hskip]
      exact cellAt_updateCell_same data r c
    · rw [ih _ r c hrest (List.nodup_cons.mp hnd).2]
      by_cases hk : k = (r, c)
      · rw [hk] at hnd
        exact absurd hrest (List.nodup_cons.mp hnd).1
      · rw [cellAt_updateCell_other]
        intro ⟨h1, h2⟩
        exact hk (Prod.ext h1 h2)

theorem length_csvApplyKeys (keys : List (Nat × Nat)) :
    ∀ data, (csvApplyKeys data keys).length = data.length := by
  induction keys with
  | nil => intro data; rfl
  | cons k rest ih =>
    intro data
    unfold csvApplyKeys at ih ⊢
    simp only [List.foldl_cons]
    rw [ih, length_updateAt]

/-- C3 counterexample: the length of the block run written into a
redacted cell is not independent of the original cell content's length
— a 4-character cell becomes 4 blocks while a 10-character cell becomes
10 blocks (`max(3, min(len, 20))` echoes `len` throughout 3–20). -/
theorem C3_counterexample_length_dependent :
    (redactCsv ⟨[[['a', 'b', 'c', 'd']]], ',', [], false⟩
        [⟨0, 0, 0, 0, [], none, none, some 0, some 0, none, some BSource.manual, none⟩]).data =
      [[blockRun 4]] ∧
    (redactCsv ⟨[[['a', 'b', 'c', 'd', 'e', 'f', 'g', 'h', 'i', 'j']]], ',', [], false⟩
        [⟨0, 0, 0, 0, [], none, none, some 0, some 0, none, some BSource.manual, none⟩]).data =
      [[blockRun 10]] ∧
    (blockRun 4).length ≠ (blockRun 10).length := by
  refine ⟨?_, ?_, by simp [blockRun]⟩ <;>
    simp [redactCsv, csvApplyKeys, firstDedup, cellKey, updateAt, redactCell]

/-- C3 (amended): for every CSV document and redaction box carrying a
defined in-range row and column, `CsvFormat.redact` replaces the entire
cell content with a block run of `max(3, min(originalLength, 20))`
characters — always between 3 and 20, but equal to the original length
whenever that length is itself between 3 and 20, hence not independent
of it. -/
theorem C3_csv_cell_redaction (doc : CsvDoc) (boxes : List BoundingBox) (b : BoundingBox)
    (r c : Nat) (hb : b ∈ boxes) (hr : b.row = some r) (hc : b.column = some c)
    (cell : List Char) (hcell : cellAt doc.data r c = some cell) :
    cellAt (redactCsv doc boxes).data r c = some (blockRun (max 3 (min cell.length 20))) ∧
    3 ≤ max 3 (min cell.length 20) ∧ max 3 (min cell.length 20) ≤ 20 ∧
    (3 ≤ cell.length → cell.length ≤ 20 → max 3 (min cell.length 20) = cell.length) := by
  have hkey : (r, c) ∈ boxes.filterMap cellKey := by
    rw [List.mem_filterMap]
    exact ⟨b, hb, by simp [cellKey, hr, hc]⟩
  have hmem : (r, c) ∈ firstDedup (boxes.filterMap cellKey) :=
    (mem_firstDedup _ _).mpr hkey
  refine ⟨?_, le_max_left _ _, ?_, ?_⟩
  · show cellAt (csvApplyKeys doc.data (firstDedup (boxes.filterMap cellKey))) r c = _
    rw [cellAt_csvApplyKeys_mem _ _ _ _ hmem (firstDedup_nodup _), hcell]
    rfl
  · omega
  · omega

/-- Witness for C3's amended statement on a concrete one-cell document. -/
theorem C3_csv_cell_redaction_witness :
    cellAt (redactCsv ⟨[[['a', 'b', 'c', 'd']]], ',', [], false⟩
        [⟨0, 0, 0, 0, [], none, none, some 0, some 0, none, some BSource.manual, none⟩]).data 0 0 =
      some (blockRun (max 3 (min (['a', 'b', 'c', 'd'] : List Char).length 20))) ∧
    3 ≤ max 3 (min (['a', 'b', 'c', 'd'] : List Char).length 20) ∧
    max 3 (min (['a', 'b', 'c', 'd'] : List Char).length 20) ≤ 20 ∧
    (3 ≤ (['a', 'b', 'c', 'd'] : List Char).length →
      (['a', 'b', 'c', 'd'] : List Char).length ≤ 20 →
      max 3 (min (['a', 'b', 'c', 'd'] : List Char).length 20) =
        (['a', 'b', 'c', 'd'] : List Char).length) :=
  C3_csv_cell_redaction ⟨[[['a', 'b', 'c', 'd']]], ',', [], false⟩
    [⟨0, 0, 0, 0, [], none, none, some 0, some 0, none, some BSource.manual, none⟩]
    ⟨0, 0, 0, 0, [], none, none, some 0, some 0, none, some BSource.manual, none⟩
    0 0 (List.mem_singleton.mpr rfl) rfl rfl ['a', 'b', 'c', 'd'] rfl

/-! ### Box accumulation across redact calls -/

theorem filter_ne_eq_self_of_not_mem {l : List (Nat × Nat)} {k : Nat × Nat}
    (h : k ∉ l) : l.filter (fun j => j ≠ k) = l := by
  rw [List.filter_eq_self]
  intro a ha
  simp only [ne_eq, decide_eq_true_eq]
  intro he
  exact h (he ▸ ha)

theorem firstDedup_append_disjoint :
    ∀ (l1 l2 : List (Nat × Nat)), (∀ k ∈ l1, k ∉ l2) →
      firstDedup (l1 ++ l2) = firstDedup l1 ++ firstDedup l2 := by
  intro l1
  induction l1 using firstDedup.induct with
  | case1 =>
    intro l2 _
    simp only [List.nil_append]
    rw [firstDedup]
    simp
  | case2 k rest ih =>
    intro l2 hdisj
    rw [List.cons_append, firstDedup_cons, firstDedup_cons, List.filter_append,
      filter_ne_eq_self_of_not_mem (hdisj k (List.mem_cons_self k rest)),
      ih l2 (fun j hj => hdisj j (List.mem_cons_of_mem k (List.mem_of_mem_filter hj))),
      List.cons_append]

/-- C9: `doc.boxes` is an append-only accumulator and `doc.modified` is
set, for both the plain-text and the CSV adapter; and for the CSV
adapter, two `redact` calls with cell-disjoint box sets produce exactly
the same document — and hence the same export — as a single call with
both box sets, so a repeated export reflects both redactions. -/
theorem C9_boxes_append_only :
    (∀ (doc : PTDoc) (bs : List BoundingBox),
      (redactPT doc bs).boxes = doc.boxes ++ bs ∧ (redactPT doc bs).modified = true) ∧
    (∀ (doc : CsvDoc) (bs : List BoundingBox),
      (redactCsv doc bs).boxes = doc.boxes ++ bs ∧ (redactCsv doc bs).modified = true) ∧
    (∀ (doc : CsvDoc) (b1 b2 : List BoundingBox),
      (∀ k, k ∈ b1.filterMap cellKey → k ∉ b2.filterMap cellKey) →
      redactCsv (redactCsv doc b1) b2 = redactCsv doc (b1 ++ b2) ∧
      exportCsv (redactCsv (redactCsv doc b1) b2) = exportCsv (redactCsv doc (b1 ++ b2))) := by
  refine ⟨fun doc bs => ⟨rfl, rfl⟩, fun doc bs => ⟨rfl, rfl⟩, ?_⟩
  intro doc b1 b2 hdisj
  have hdata : csvApplyKeys (csvApplyKeys doc.data (firstDedup (b1.filterMap cellKey)))
      (firstDedup (b2.filterMap cellKey)) =
      csvApplyKeys doc.data (firstDedup ((b1 ++ b2).filterMap cellKey)) := by
    rw [List.filterMap_append, firstDedup_append_disjoint _ _ hdisj]
    unfold csvApplyKeys
    rw [List.foldl_append]
  have hdoc : redactCsv (redactCsv doc b1) b2 = redactCsv doc (b1 ++ b2) := by
    unfold redactCsv
    simp only [hdata, List.append_assoc]
  exact ⟨hdoc, by rw [hdoc]⟩

/-- Witness for C9: a two-row CSV, first redacting cell (0,0) and then
cell (1,1), accumulates both boxes and equals the combined redaction. -/
theorem C9_boxes_append_only_witness :
    ((redactPT ⟨[['h', 'i']], [], false⟩ []).boxes = [] ++ [] ∧
      (redactPT ⟨[['h', 'i']], [], false⟩ []).modified = true) ∧
    (redactCsv (redactCsv ⟨[[['a'], ['b']], [['c'], ['d']]], ',', [], false⟩
        [⟨0, 0, 0, 0, ['a'], none, none, some 0, some 0, none, none, none⟩])
        [⟨0, 0, 0, 0, ['d'], none, none, some 1, some 1, none, none, none⟩] =
      redactCsv ⟨[[['a'], ['b']], [['c'], ['d']]], ',', [], false⟩
        ([⟨0, 0, 0, 0, ['a'], none, none, some 0, some 0, none, none, none⟩] ++
          [⟨0, 0, 0, 0, ['d'], none, none, some 1, some 1, none, none, none⟩])) :=
  ⟨C9_boxes_append_only.1 ⟨[['h', 'i']], [], false⟩ [],
   (C9_boxes_append_only.2.2 ⟨[[['a'], ['b']], [['c'], ['d']]], ',', [], false⟩
      [⟨0, 0, 0, 0, ['a'], none, none, some 0, some 0, none, none, none⟩]
      [⟨0, 0, 0, 0, ['d'], none, none, some 1, some 1, none, none, none⟩]
      (by intro k hk1 hk2; simp [cellKey] at hk1 hk2; subst hk1; simp at hk2)).1⟩

/-! ### mergeOverlappingBoxes covers every input box -/

theorem containsBox_refl (b : BoundingBox) : containsBox b b :=
  ⟨le_refl _, le_refl _, le_refl _, le_refl _⟩

theorem containsBox_trans {a b c : BoundingBox}
    (h1 : containsBox a b) (h2 : containsBox b c) : containsBox a c := by
  obtain ⟨x1, y1, w1, h1'⟩ := h1
  obtain ⟨x2, y2, w2, h2'⟩ := h2
  exact ⟨le_trans x1 x2, le_trans y1 y2, le_trans w2 w1, le_trans h2' h1'⟩

theorem mergeTwoBoxes_contains_left (a b : BoundingBox) :
    containsBox (mergeTwoBoxes a b) a := by
  refine ⟨min_le_left _ _, min_le_left _ _, ?_, ?_⟩ <;>
    · simp only [mergeTwoBoxes]
      have := le_max_left (a.x + a.w) (b.x + b.w)
      have := le_max_left (a.y + a.h) (b.y + b.h)
      ring_nf
      linarith [min_le_left a.x b.x, min_le_left a.y b.y,
        le_max_left (a.x + a.w) (b.x + b.w), le_max_left (a.y + a.h) (b.y + b.h)]

theorem mergeTwoBoxes_contains_right (a b : BoundingBox) :
    containsBox (mergeTwoBoxes a b) b := by
  refine ⟨min_le_right _ _, min_le_right _ _, ?_, ?_⟩ <;>
    · simp only [mergeTwoBoxes]
      ring_nf
      linarith [min_le_right a.x b.x, min_le_right a.y b.y,
        le_max_right (a.x + a.w) (b.x + b.w), le_max_right (a.y + a.h) (b.y + b.h)]

theorem mergeSweep_head :
    ∀ (rest : List BoundingBox) (cur : BoundingBox),
      ∃ m ∈ mergeSweep cur rest, containsBox m cur := by
  intro rest
  induction rest with
  | nil => intro cur; exact ⟨cur, List.mem_singleton.mpr rfl, containsBox_refl cur⟩
  | cons next rest ih =>
    intro cur
    unfold mergeSweep
    by_cases hov : boxesOverlap cur next = true
    · simp only [hov, if_true]
      obtain ⟨m, hm, hc⟩ := ih (mergeTwoBoxes cur next)
      exact ⟨m, hm, containsBox_trans hc (mergeTwoBoxes_contains_left cur next)⟩
    · simp only [hov, if_false, Bool.false_eq_true]
      exact ⟨cur, List.mem_cons_self _ _, containsBox_refl cur⟩

theorem mergeSweep_mem :
    ∀ (rest : List BoundingBox) (cur b : BoundingBox), b ∈ rest →
      ∃ m ∈ mergeSweep cur rest, containsBox m b := by
  intro rest
  induction rest with
  | nil => intro cur b hb; exact absurd hb (List.not_mem_nil b)
  | cons next rest ih =>
    intro cur b hb
    unfold mergeSweep
    by_cases hov : boxesOverlap cur next = true
    · simp only [hov, if_true]
      rcases List.mem_cons.mp hb with rfl | hb'
      · obtain ⟨m, hm, hc⟩ := mergeSweep_head rest (mergeTwoBoxes cur b)
        exact ⟨m, hm, containsBox_trans hc (mergeTwoBoxes_contains_right cur b)⟩
      · exact ih (mergeTwoBoxes cur next) b hb'
    · simp only [hov, if_false, Bool.false_eq_true]
      rcases List.mem_cons.mp hb with rfl | hb'
      · obtain ⟨m, hm, hc⟩ := mergeSweep_head rest b
        exact ⟨m, List.mem_cons_of_mem cur hm, hc⟩
      · obtain ⟨m, hm, hc⟩ := ih next b hb'
        exact ⟨m, List.mem_cons_of_mem cur hm, hc⟩

/-- C10: every input box is geometrically contained in at least one box
returned by `mergeOverlappingBoxes` — the pairwise merge is the
axis-aligned union, so merging never loses an input region. -/
theorem C10_merge_covers_inputs (boxes : List BoundingBox) (b : BoundingBox)
    (hb : b ∈ boxes) :
    ∃ m ∈ mergeOverlappingBoxes boxes, containsBox m b := by
  unfold mergeOverlappingBoxes
  have hb' : b ∈ List.insertionSort boxXLE boxes :=
    (List.perm_insertionSort boxXLE boxes).mem_iff.mpr hb
  rcases hsort : List.insertionSort boxXLE boxes with _ | ⟨hd, rest⟩
  · rw [hsort] at hb'
    exact absurd hb' (List.not_mem_nil b)
  · rw [hsort] at hb'
    rcases List.mem_cons.mp hb' with rfl | hbr
    · exact mergeSweep_head rest b
    · exact mergeSweep_mem rest hd b hbr

/-- Witness for C10: two overlapping unit boxes, the first is covered
by some merged output box. -/
theorem C10_merge_covers_inputs_witness :
    ∃ m ∈ mergeOverlappingBoxes
        [⟨0, 0, 2, 2, [], none, none, none, none, none, none, none⟩,
         ⟨1, 1, 2, 2, [], none, none, none, none, none, none, none⟩],
      containsBox m ⟨0, 0, 2, 2, [], none, none, none, none, none, none, none⟩ :=
  C10_merge_covers_inputs _ _ (List.mem_cons_self _ _)

/-! ### findLikelyPANs and the Luhn checksum -/

/-- C7: `findLikelyPANs` returns exactly those regex candidates whose
separator-stripped form has 13–19 digits and passes the Luhn checksum;
on the spec's vectors, `4532015112830366` is accepted,
`1234567812345678` is rejected, and the formatted
`4532-0151-1283-0366` normalizes to and is accepted identically to the
unformatted string. -/
theorem C7_pan_luhn_filter :
    (∀ (text d : List Char),
      d ∈ findLikelyPANs text ↔
        ∃ c ∈ panScan none text,
          stripSeps c = d ∧ 13 ≤ d.length ∧ d.length ≤ 19 ∧ luhnCheck d = true) ∧
    findLikelyPANs (("Card: 4532015112830366").toList) = [("4532015112830366").toList] ∧
    findLikelyPANs (("Card: 1234567812345678").toList) = [] ∧
    findLikelyPANs (("Card: 4532-0151-1283-0366").toList) = [("4532015112830366").toList] := by
  refine ⟨?_, ?_, ?_, ?_⟩
  · intro text d
    unfold findLikelyPANs panFilter
    rw [List.mem_filter, List.mem_map]
    constructor
    · rintro ⟨⟨c, hc, rfl⟩, hp⟩
      simp only [Bool.and_eq_true, decide_eq_true_eq] at hp
      exact ⟨c, hc, rfl, hp.1.1, hp.1.2, hp.2⟩
    · rintro ⟨c, hc, rfl, h1, h2, h3⟩
      exact ⟨⟨c, hc, rfl⟩, by simp [h1, h2, h3]⟩
  · simp +decide [findLikelyPANs, panFilter, panScan, tryReps, stripSeps, luhnCheck,
      luhnSumRev, luhnDouble, isWordCh, boundaryB, isSepCh]
  · simp +decide [findLikelyPANs, panFilter, panScan, tryReps, stripSeps, luhnCheck,
      luhnSumRev, luhnDouble, isWordCh, boundaryB, isSepCh]
  · simp +decide [findLikelyPANs, panFilter, panScan, tryReps, stripSeps, luhnCheck,
      luhnSumRev, luhnDouble, isWordCh, boundaryB, isSepCh]

/-! ### DetectionMerger -/

theorem srcRank_inj (s t : DSource) (h : srcRank s = srcRank t) : s = t := by
  cases s <;> cases t <;> simp [srcRank] at h ⊢

theorem detKey_inj (a b : Detection) (h : detKey a = detKey b) : a = b := by
  cases a with
  | mk t1 ty1 c1 s1 st1 sp1 =>
    cases b with
    | mk t2 ty2 c2 s2 st2 sp2 =>
      simp only [detKey, toLex_inj, Prod.mk.injEq] at h
      obtain ⟨h1, h2, h3, h4, h5, h6⟩ := h
      simp_all only [Detection.mk.injEq, and_true, true_and]
      exact srcRank_inj _ _ h6

instance : IsTotal Detection detLE :=
  ⟨fun a b => le_total (detKey a) (detKey b)⟩

instance : IsTrans Detection detLE :=
  ⟨fun _ _ _ h1 h2 => le_trans h1 h2⟩

instance : IsAntisymm Detection detLE :=
  ⟨fun a b h1 h2 => detKey_inj a b (le_antisymm h1 h2)⟩

theorem sortDets_perm (l : List Detection) : List.Perm (sortDets l) l :=
  List.perm_insertionSort detLE l

theorem sortDets_eq_of_perm {a a' : List Detection} (h : List.Perm a a') :
    sortDets a = sortDets a' :=
  List.eq_of_perm_of_sorted
    ((sortDets_perm a).trans (h.trans (sortDets_perm a').symm))
    (List.sorted_insertionSort detLE a) (List.sorted_insertionSort detLE a')

theorem dedupTT_pair (x y : Detection) (h : ¬(y.text = x.text ∧ y.dtype = x.dtype)) :
    dedupTT [x, y] = [x, y] := by
  rw [dedupTT]
  have hy : (!(y.text == x.text && y.dtype == x.dtype)) = true := by
    simp only [Bool.not_eq_true']
    rcases not_and_or.mp h with hh | hh <;> simp [hh]
  rw [show ([y].filter (fun e => !(e.text == x.text && e.dtype == x.dtype))) = [y] by
    simp [List.filter, hy]]
  rw [dedupTT, show (([] : List Detection).filter _) = [] from rfl, dedupTT]

/-- C8: the spec-modelled DetectionMerger is order-independent (its
output is unchanged under any permutation of either input list);
same-type fully-overlapping detections collapse to the single
higher-confidence detection; different-type detections are both
retained. -/
theorem C8_merge_order_and_overlap :
    (∀ (a b a' b' : List Detection), List.Perm a a' → List.Perm b b' →
      mergeDetections a b = mergeDetections a' b') ∧
    (∀ r m : Detection, r.dtype = m.dtype → r.dstart = m.dstart → r.dstop = m.dstop →
      r.dstart < r.dstop →
      (m.conf ≤ r.conf → mergeDetections [r] [m] = [r]) ∧
      (r.conf < m.conf → mergeDetections [r] [m] = [m])) ∧
    (∀ r m : Detection, r.dtype ≠ m.dtype →
      r ∈ mergeDetections [r] [m] ∧ m ∈ mergeDetections [r] [m]) := by
  refine ⟨?_, ?_, ?_⟩
  · intro a b a' b' ha hb
    unfold mergeDetections
    rw [sortDets_eq_of_perm ha, sortDets_eq_of_perm hb]
  · intro r m hty hst hsp hlt
    have hover : overlapsDet r m = true := by
      simp only [overlapsDet, ← hst, ← hsp, max_self, min_self, decide_eq_true_eq]
      exact hlt
    have hone : sortDets [r] = [r] := rfl
    have honem : sortDets [m] = [m] := rfl
    constructor
    · intro hconf
      have hns : mlSupersedes r m = false := by
        simp [mlSupersedes, not_lt.mpr hconf]
      have hkm : keepMl [r] m = false := by
        simp [keepMl, hover, hty, hconf]
      have hkr : keepRegex [m] r = true := by
        simp [keepRegex, hns]
      have hexp : expandSpan [m] r = r := by
        simp [expandSpan, List.find?, ← hst, ← hsp]
      unfold mergeDetections
      rw [hone, honem]
      simp only [List.filter, hkm, hkr, hexp, List.map, List.append_nil]
      rw [hone]
      rw [dedupTT, show (([] : List Detection).filter _) = [] from rfl, dedupTT]
    · intro hconf
      have hns : mlSupersedes r m = true := by
        simp [mlSupersedes, hover, hty, hconf]
      have hkm : keepMl [r] m = true := by
        simp [keepMl, hover, hty, not_le.mpr hconf]
      unfold mergeDetections
      rw [hone, honem]
      simp only [List.filter, hns, hkm, keepRegex, List.any_cons, List.any_nil,
        Bool.or_false, Bool.not_true, List.map, List.nil_append]
      rw [honem]
      rw [dedupTT, show (([] : List Detection).filter _) = [] from rfl, dedupTT]
  · intro r m hty
    have hns : mlSupersedes r m = false := by
      simp [mlSupersedes, hty]
    have hkm : keepMl [r] m = true := by
      simp [keepMl, hty]
    have hexp : expandSpan [m] r = r := by
      have : (m.dtype == r.dtype) = false := by
        simp [Ne.symm hty]
      simp [expandSpan, List.find?, this]
    have hlist : ((sortDets [r]).filter (keepRegex (sortDets [m]))).map
          (expandSpan (sortDets [m])) ++ (sortDets [m]).filter (keepMl (sortDets [r])) =
        [r, m] := by
      show ([r].filter (keepRegex [m])).map (expandSpan [m]) ++ [m].filter (keepMl [r]) = _
      simp only [List.filter, keepRegex, List.any_cons, List.any_nil, hns,
        Bool.or_false, Bool.not_false, hkm, List.map, hexp]
      rfl
    have hmerge : mergeDetections [r] [m] = dedupTT (sortDets [r, m]) :=
      congrArg (fun l => dedupTT (sortDets l)) hlist
    have hsort : sortDets [r, m] = [r, m] ∨ sortDets [r, m] = [m, r] := by
      unfold sortDets
      by_cases hle : detLE r m
      · left
        simp [List.insertionSort, List.orderedInsert, hle]
      · right
        simp [List.insertionSort, List.orderedInsert, hle]
    rcases hsort with hs | hs
    · rw [hmerge, hs, dedupTT_pair r m (fun hh => hty (hh.2.symm))]
      simp
    · rw [hmerge, hs, dedupTT_pair m r (fun hh => hty hh.2)]
      simp

/-- Witness for C8 at concrete detections: a regex email detection, an
overlapping same-type ML detection of lower confidence, and an
overlapping ML person detection of a different type. -/
theorem C8_merge_order_and_overlap_witness :
    mergeDetections [⟨"john@x.com", "email", 1, .regex, 10, 20⟩]
        [⟨"john@x.com", "email", 9 / 10, .ml, 10, 20⟩, ⟨"John Doe", "person", 4 / 5, .ml, 15, 23⟩] =
      mergeDetections [⟨"john@x.com", "email", 1, .regex, 10, 20⟩]
        [⟨"John Doe", "person", 4 / 5, .ml, 15, 23⟩, ⟨"john@x.com", "email", 9 / 10, .ml, 10, 20⟩] ∧
    mergeDetections [⟨"john@x.com", "email", 1, .regex, 10, 20⟩]
        [⟨"john@x.com", "email", 9 / 10, .ml, 10, 20⟩] =
      [⟨"john@x.com", "email", 1, .regex, 10, 20⟩] ∧
    (⟨"john@x.com", "email", 1, .regex, 10, 20⟩ : Detection) ∈
      mergeDetections [⟨"john@x.com", "email", 1, .regex, 10, 20⟩]
        [⟨"John Doe", "person", 4 / 5, .ml, 15, 23⟩] ∧
    (⟨"John Doe", "person", 4 / 5, .ml, 15, 23⟩ : Detection) ∈
      mergeDetections [⟨"john@x.com", "email", 1, .regex, 10, 20⟩]
        [⟨"John Doe", "person", 4 / 5, .ml, 15, 23⟩] := by
  refine ⟨?_, ?_, ?_, ?_⟩
  · exact C8_merge_order_and_overlap.1 _ _ _ _ (List.Perm.refl _)
      (List.Perm.swap _ _ _)
  · exact (C8_merge_order_and_overlap.2.1
      ⟨"john@x.com", "email", 1, .regex, 10, 20⟩
      ⟨"john@x.com", "email", 9 / 10, .ml, 10, 20⟩ rfl rfl rfl (by norm_num)).1
      (by norm_num)
  · exact (C8_merge_order_and_overlap.2.2
      ⟨"john@x.com", "email", 1, .regex, 10, 20⟩
      ⟨"John Doe", "person", 4 / 5, .ml, 15, 23⟩ (by decide)).1
  · exact (C8_merge_order_and_overlap.2.2
      ⟨"john@x.com", "email", 1, .regex, 10, 20⟩
      ⟨"John Doe", "person", 4 / 5, .ml, 15, 23⟩ (by decide)).2

/-! ### Case-insensitive occurrence machinery (towards C2) -/

theorem occursAt_le {s t : List Char} {i : Nat} (h : OccursAt s t i) :
    i + t.length ≤ s.length := h.1

theorem mem_occIdxs {s t : List Char} {i : Nat} :
    i ∈ occIdxs s t ↔ OccursAt s t i := by
  unfold occIdxs
  rw [List.mem_filter, List.mem_range]
  constructor
  · intro h
    exact of_decide_eq_true h.2
  · intro h
    exact ⟨by have := h.1; omega, decide_eq_true h⟩

theorem occIdxs_pairwise (s t : List Char) : (occIdxs s t).Pairwise (· < ·) :=
  (List.pairwise_lt_range _).filter _

theorem occIdxs_nodup (s t : List Char) : (occIdxs s t).Nodup :=
  (occIdxs_pairwise s t).imp Nat.ne_of_lt

theorem indexOfFrom_none {s t : List Char} {st : Nat}
    (h : indexOfFrom s t st = none) :
    ∀ i, st ≤ i → ¬OccursAt s t i := by
  unfold indexOfFrom at h
  rw [List.head?_eq_none_iff, List.filter_eq_nil_iff] at h
  intro i hi hocc
  exact h i (mem_occIdxs.mpr hocc) (by simpa using hi)

theorem indexOfFrom_some {s t : List Char} {st i : Nat}
    (h : indexOfFrom s t st = some i) :
    st ≤ i ∧ OccursAt s t i ∧ ∀ j, st ≤ j → OccursAt s t j → i ≤ j := by
  unfold indexOfFrom at h
  set l := (occIdxs s t).filter (fun j => decide (st ≤ j)) with hl
  have hcons : ∃ rest, l = i :: rest := by
    cases hlc : l with
    | nil => rw [hlc] at h; simp at h
    | cons x rest =>
      rw [hlc] at h
      simp at h
      exact ⟨rest, by rw [h]⟩
  obtain ⟨rest, hrest⟩ := hcons
  have hmem : i ∈ l := hrest ▸ List.mem_cons_self i rest
  have h1 : i ∈ occIdxs s t := (List.mem_filter.mp hmem).1
  have h2 : st ≤ i := by simpa using (List.mem_filter.mp hmem).2
  refine ⟨h2, mem_occIdxs.mp h1, ?_⟩
  intro j hj hocc
  have hjmem : j ∈ l := List.mem_filter.mpr ⟨mem_occIdxs.mpr hocc, by simpa using hj⟩
  have hpair : l.Pairwise (· < ·) := (occIdxs_pairwise s t).filter _
  rw [hrest] at hjmem hpair
  rcases List.mem_cons.mp hjmem with rfl | hjr
  · exact le_refl j
  · exact le_of_lt ((List.pairwise_cons.mp hpair).1 j hjr)

theorem occursAt_getElem {s t : List Char} {i : Nat} :
    OccursAt s t i ↔
      i + t.length ≤ s.length ∧ ∀ j, j < t.length → s[i + j]? = t[j]? := by
  constructor
  · rintro ⟨hlen, heq⟩
    refine ⟨hlen, fun j hj => ?_⟩
    have := congrArg (fun l => l[j]?) heq
    simpa [List.getElem?_take, List.getElem?_drop, hj] using this
  · rintro ⟨hlen, hpt⟩
    refine ⟨hlen, ?_⟩
    apply List.ext_getElem?
    intro n
    by_cases hn : n < t.length
    · simpa [List.getElem?_take, List.getElem?_drop, hn] using hpt n hn
    · rw [List.getElem?_take_eq_none (by omega)]
      exact (List.getElem?_eq_none (by omega)).symm

theorem scanFrom_none {s t : List Char} {st : Nat} (h : indexOfFrom s t st = none) :
    scanFrom s t st = [] := by
  rw [scanFrom.eq_def]
  split
  · rfl
  · rename_i i heq
    rw [h] at heq
    exact absurd heq (by simp)

theorem scanFrom_some {s t : List Char} {st i : Nat} (h : indexOfFrom s t st = some i) :
    scanFrom s t st = i :: scanFrom s t (i + 1) := by
  rw [scanFrom.eq_def]
  split
  · rename_i heq
    rw [h] at heq
    exact absurd heq (by simp)
  · rename_i j heq
    rw [h] at heq
    injection heq with heq'
    rw [heq']

theorem filter_ge_of_head :
    ∀ {l : List Nat}, l.Pairwise (· < ·) → ∀ {st i : Nat},
      (l.filter (fun j => decide (st ≤ j))).head? = some i →
      l.filter (fun j => decide (st ≤ j)) = i :: l.filter (fun j => decide (i + 1 ≤ j)) := by
  intro l
  induction l with
  | nil => intro _ st i h; simp at h
  | cons x xs ih =>
    intro hp st i h
    obtain ⟨hx, hxs⟩ := List.pairwise_cons.mp hp
    by_cases hst : st ≤ x
    · rw [List.filter_cons_of_pos (by simpa using hst)] at h ⊢
      simp only [List.head?_cons, Option.some.injEq] at h
      rw [← h]
      rw [List.filter_cons_of_neg (by simp)]
      have h1 : xs.filter (fun j => decide (st ≤ j)) = xs := by
        rw [List.filter_eq_self]
        intro a ha
        have := hx a ha
        simp
        omega
      have h2 : xs.filter (fun j => decide (x + 1 ≤ j)) = xs := by
        rw [List.filter_eq_self]
        intro a ha
        have := hx a ha
        simp
        omega
      rw [h1, h2]
    · rw [List.filter_cons_of_neg (by simpa using hst)] at h ⊢
      have hmem : i ∈ xs.filter (fun j => decide (st ≤ j)) :=
        List.mem_of_mem_head? (Option.mem_def.mpr h)
      have hsti : st ≤ i := by simpa using (List.mem_filter.mp hmem).2
      rw [ih hxs h]
      rw [List.filter_cons_of_neg (by simp; omega)]

theorem scanFrom_eq_filter (s t : List Char) :
    ∀ st, scanFrom s t st = (occIdxs s t).filter (fun j => decide (st ≤ j)) := by
  suffices h : ∀ n st, s.length + 1 - st ≤ n →
      scanFrom s t st = (occIdxs s t).filter (fun j => decide (st ≤ j)) by
    intro st
    exact h (s.length + 1 - st) st le_rfl
  intro n
  induction n with
  | zero =>
    intro st hst
    have hnone : indexOfFrom s t st = none := by
      cases h : indexOfFrom s t st with
      | none => rfl
      | some i =>
        obtain ⟨h1, h2, _⟩ := indexOfFrom_some h
        have := occursAt_le h2
        omega
    rw [scanFrom_none hnone]
    rw [eq_comm, List.filter_eq_nil_iff]
    intro j hj
    have hjr : j + t.length ≤ s.length := occursAt_le (mem_occIdxs.mp hj)
    simp only [decide_eq_true_eq]
    omega
  | succ n ih =>
    intro st hst
    cases h : indexOfFrom s t st with
    | none =>
      rw [scanFrom_none h, eq_comm, List.filter_eq_nil_iff]
      intro j hj
      simp only [decide_eq_true_eq]
      intro hstj
      exact indexOfFrom_none h j hstj (mem_occIdxs.mp hj)
    | some i =>
      obtain ⟨h1, h2, _⟩ := indexOfFrom_some h
      have hilen := occursAt_le h2
      rw [scanFrom_some h, ih (i + 1) (by omega)]
      exact (filter_ge_of_head (occIdxs_pairwise s t) h).symm

theorem scanFrom_zero_length (s t : List Char) :
    (scanFrom s t 0).length = occCount s t := by
  rw [scanFrom_eq_filter s t 0]
  unfold occCount
  congr 1
  rw [List.filter_eq_self]
  intro a _
  simp

/-! ### replaceFirst and the occurrence-count argument -/

theorem replaceFirst_of_none {s t : List Char} (h : indexOfFrom s t 0 = none) :
    replaceFirst s t = s := by
  simp [replaceFirst, h]

theorem length_replaceFirst (s t : List Char) :
    (replaceFirst s t).length = s.length := by
  cases h : indexOfFrom s t 0 with
  | none => rw [replaceFirst_of_none h]
  | some i =>
    have hle := occursAt_le (indexOfFrom_some h).2.1
    simp only [replaceFirst, h, List.length_append, List.length_take, List.length_drop,
      blockRun, List.length_replicate]
    omega

theorem getElem?_replaceFirst_of_some {s t : List Char} {i : Nat}
    (h : indexOfFrom s t 0 = some i) (j : Nat) :
    (replaceFirst s t)[j]? =
      if j < i then s[j]?
      else if j < i + t.length then some blk
      else s[j]? := by
  have hle := occursAt_le (indexOfFrom_some h).2.1
  simp only [replaceFirst, h]
  have hti : (s.take i).length = i := by
    rw [List.length_take]
    omega
  have htb : (s.take i ++ blockRun t.length).length = i + t.length := by
    simp [blockRun, hti]
  by_cases h1 : j < i
  · rw [List.getElem?_append, htb, if_pos (by omega), List.getElem?_append, hti,
      if_pos h1, List.getElem?_take, if_pos h1, if_pos h1]
  · by_cases h2 : j < i + t.length
    · rw [List.getElem?_append, htb, if_pos (by omega), List.getElem?_append, hti,
        if_neg h1]
      simp only [blockRun, List.getElem?_replicate]
      rw [if_pos (by omega), if_neg h1, if_pos h2]
    · rw [List.getElem?_append, htb, if_neg (by omega), List.getElem?_drop,
        if_neg h1, if_neg h2]
      congr 1
      omega

theorem occursAt_mem_of_getElem {s t : List Char} {i j : Nat}
    (hocc : OccursAt s t i) (hj : j < t.length) {c : Char}
    (hc : s[i + j]? = some c) : c ∈ t := by
  have hpt := (occursAt_getElem.mp hocc).2 j hj
  rw [hc] at hpt
  exact List.getElem?_mem hpt.symm

theorem newOcc_of_replaceFirst {s t : List Char} {i : Nat}
    (hblk : blk ∉ t) (hne : t ≠ []) (h : indexOfFrom s t 0 = some i)
    {q : Nat} (hq : OccursAt (replaceFirst s t) t q) :
    i + t.length ≤ q ∧ OccursAt s t q := by
  obtain ⟨_, hocc, hmin⟩ := indexOfFrom_some h
  have hL : 1 ≤ t.length := by
    cases t with
    | nil => exact absurd rfl hne
    | cons c cs => simp
  have hlen := length_replaceFirst s t
  obtain ⟨hqlen, hqpt⟩ := occursAt_getElem.mp hq
  have hdisj : q + t.length ≤ i ∨ i + t.length ≤ q := by
    by_contra hcon
    push_neg at hcon
    have hidx : q + (max i q - q) = max i q := by omega
    have hcell := hqpt (max i q - q) (by omega)
    rw [getElem?_replaceFirst_of_some h, hidx, if_neg (by omega), if_pos (by omega)] at hcell
    exact hblk (List.getElem?_mem hcell.symm)
  rcases hdisj with hlt | hge
  · exfalso
    have hocc' : OccursAt s t q := by
      rw [occursAt_getElem]
      refine ⟨by omega, fun j hj => ?_⟩
      have := hqpt j hj
      rw [getElem?_replaceFirst_of_some h, if_pos (by omega)] at this
      exact this.symm ▸ this
    have := hmin q (Nat.zero_le q) hocc'
    omega
  · refine ⟨hge, ?_⟩
    rw [occursAt_getElem]
    refine ⟨by omega, fun j hj => ?_⟩
    have := hqpt j hj
    rw [getElem?_replaceFirst_of_some h, if_neg (by omega), if_neg (by omega)] at this
    exact this

theorem occCount_replaceFirst_lt {s t : List Char} {i : Nat}
    (hblk : blk ∉ t) (hne : t ≠ []) (h : indexOfFrom s t 0 = some i) :
    occCount (replaceFirst s t) t < occCount s t := by
  obtain ⟨_, hocc, _⟩ := indexOfFrom_some h
  have hL : 1 ≤ t.length := by
    cases t with
    | nil => exact absurd rfl hne
    | cons c cs => simp
  have hsub : occIdxs (replaceFirst s t) t ⊆
      (occIdxs s t).filter (fun j => decide (i + t.length ≤ j)) := by
    intro q hq
    obtain ⟨hq1, hq2⟩ := newOcc_of_replaceFirst hblk hne h (mem_occIdxs.mp hq)
    exact List.mem_filter.mpr ⟨mem_occIdxs.mpr hq2, by simpa using hq1⟩
  have hle1 : (occIdxs (replaceFirst s t) t).length ≤
      ((occIdxs s t).filter (fun j => decide (i + t.length ≤ j))).length :=
    ((occIdxs_nodup _ _).subperm hsub).length_le
  have hlt2 : ((occIdxs s t).filter (fun j => decide (i + t.length ≤ j))).length <
      (occIdxs s t).length := by
    have hsl := List.filter_sublist (p := fun j => decide (i + t.length ≤ j)) (occIdxs s t)
    rcases lt_or_eq_of_le hsl.length_le with hlt | heq
    · exact hlt
    · exfalso
      have heql := hsl.eq_of_length heq
      have hmemi : i ∈ occIdxs s t := mem_occIdxs.mpr hocc
      rw [← heql] at hmemi
      have := (List.mem_filter.mp hmemi).2
      simp only [decide_eq_true_eq] at this
      omega
  unfold occCount
  exact lt_of_le_of_lt hle1 hlt2

theorem iterate_replaceFirst_no_occ {t : List Char}
    (hblk : blk ∉ t) (hne : t ≠ []) :
    ∀ (n : Nat) (s : List Char), occCount s t ≤ n →
      ∀ q, ¬OccursAt ((fun u => replaceFirst u t)^[n] s) t q := by
  intro n
  induction n with
  | zero =>
    intro s h0 q hq
    rw [Function.iterate_zero_apply] at hq
    have hmem : q ∈ occIdxs s t := mem_occIdxs.mpr hq
    have : 0 < occCount s t := by
      unfold occCount
      exact List.length_pos.mpr (fun he => by rw [he] at hmem; exact List.not_mem_nil q hmem)
    omega
  | succ n ih =>
    intro s hle q
    rw [Function.iterate_succ_apply]
    cases h : indexOfFrom s t 0 with
    | none =>
      rw [replaceFirst_of_none h]
      apply ih
      have hnil : occIdxs s t = [] := by
        rw [List.eq_nil_iff_forall_not_mem]
        intro j hj
        exact indexOfFrom_none h j (Nat.zero_le j) (mem_occIdxs.mp hj)
      unfold occCount
      rw [hnil]
      simp
    | some i =>
      apply ih
      have := occCount_replaceFirst_lt hblk hne h
      omega

theorem getElem?_replaceFirst_blk {s t : List Char} {j : Nat}
    (h : s[j]? = some blk) : (replaceFirst s t)[j]? = some blk := by
  cases hh : indexOfFrom s t 0 with
  | none => rw [replaceFirst_of_none hh]; exact h
  | some i =>
    rw [getElem?_replaceFirst_of_some hh]
    by_cases h1 : j < i
    · simp [h1, h]
    · by_cases h2 : j < i + t.length
      · simp [h1, h2]
      · simp [h1, h2, h]

theorem getElem?_iterate_blk {t : List Char} :
    ∀ (n : Nat) (s : List Char) (j : Nat), s[j]? = some blk →
      ((fun u => replaceFirst u t)^[n] s)[j]? = some blk := by
  intro n
  induction n with
  | zero => intro s j h; simpa using h
  | succ n ih =>
    intro s j h
    rw [Function.iterate_succ_apply]
    exact ih (replaceFirst s t) j (getElem?_replaceFirst_blk h)

theorem replaceFirst_creates_run {s t : List Char} {i : Nat}
    (h : indexOfFrom s t 0 = some i) :
    ∀ j, j < t.length → (replaceFirst s t)[i + j]? = some blk := by
  intro j hj
  rw [getElem?_replaceFirst_of_some h, if_neg (by omega), if_pos (by omega)]

theorem iterate_replaceFirst_run {t : List Char} {s : List Char} {i : Nat}
    (h : indexOfFrom s t 0 = some i) {n : Nat} (hn : 1 ≤ n) :
    ∀ j, j < t.length → ((fun u => replaceFirst u t)^[n] s)[i + j]? = some blk := by
  intro j hj
  obtain ⟨m, rfl⟩ : ∃ m, n = m + 1 := ⟨n - 1, by omega⟩
  rw [Function.iterate_succ_apply]
  exact getElem?_iterate_blk m (replaceFirst s t) (i + j) (replaceFirst_creates_run h j hj)

/-! ### Characters, lowercasing, line splitting and joining -/

theorem toNat_ofNat_small {n : Nat} (h : n < 55296) : (Char.ofNat n).toNat = n := by
  unfold Char.ofNat
  rw [dif_pos (Or.inl h : Nat.isValidChar n)]
  rfl

theorem toLower_eq_iff_special {d : Char} (h1 : ¬(65 ≤ d.toNat ∧ d.toNat ≤ 90))
    (h2 : ¬(97 ≤ d.toNat ∧ d.toNat ≤ 122)) (c : Char) : c.toLower = d ↔ c = d := by
  unfold Char.toLower
  simp only []
  by_cases hc : c.toNat ≥ 65 ∧ c.toNat ≤ 90
  · rw [if_pos hc]
    constructor
    · intro h
      exfalso
      have hv := congrArg Char.toNat h
      rw [toNat_ofNat_small (by omega)] at hv
      omega
    · intro h
      subst h
      exact absurd hc h1
  · rw [if_neg hc]

theorem toLower_eq_nl (c : Char) : c.toLower = '\n' ↔ c = '\n' :=
  toLower_eq_iff_special (by decide) (by decide) c

theorem toLower_eq_blk (c : Char) : c.toLower = blk ↔ c = blk :=
  toLower_eq_iff_special (by decide) (by decide) c

theorem lowerStr_append (a b : List Char) :
    lowerStr (a ++ b) = lowerStr a ++ lowerStr b := List.map_append _ a b

theorem lowerStr_length (a : List Char) : (lowerStr a).length = a.length :=
  List.length_map a _

theorem lowerStr_blockRun (n : Nat) : lowerStr (blockRun n) = blockRun n := by
  unfold lowerStr blockRun
  rw [List.map_replicate]
  rfl

theorem splitNl_ne_nil (cs : List Char) : splitNl cs ≠ [] := by
  cases cs with
  | nil => simp [splitNl]
  | cons c rest =>
    unfold splitNl
    by_cases hc : c = '\n'
    · simp [hc]
    · simp only [hc, if_false, Bool.false_eq_true]
      cases splitNl rest <;> simp

theorem joinNl_cons {l : List (List Char)} (x : List Char) (h : l ≠ []) :
    joinNl (x :: l) = x ++ '\n' :: joinNl l := by
  cases l with
  | nil => exact absurd rfl h
  | cons y ys => rfl

theorem joinNl_splitNl (cs : List Char) : joinNl (splitNl cs) = cs := by
  induction cs with
  | nil => rfl
  | cons c rest ih =>
    by_cases hc : c = '\n'
    · subst hc
      have hsp : splitNl ('\n' :: rest) = [] :: splitNl rest := rfl
      rw [hsp, joinNl_cons _ (splitNl_ne_nil rest), ih]
      rfl
    · cases hs : splitNl rest with
      | nil => exact absurd hs (splitNl_ne_nil rest)
      | cons q qs =>
        have hsp : splitNl (c :: rest) = (c :: q) :: qs := by
          unfold splitNl
          rw [if_neg hc, hs]
        rw [hsp]
        rw [hs] at ih
        cases qs with
        | nil =>
          show c :: q = c :: rest
          rw [show joinNl [q] = q from rfl] at ih
          rw [ih]
        | cons x xs =>
          rw [joinNl_cons _ (by simp)] at ih
          rw [joinNl_cons _ (by simp), List.cons_append, ih]

theorem mem_splitNl_no_nl (cs : List Char) :
    ∀ p ∈ splitNl cs, '\n' ∉ p := by
  induction cs with
  | nil =>
    intro p hp
    simp [splitNl] at hp
    simp [hp]
  | cons c rest ih =>
    intro p hp
    by_cases hc : c = '\n'
    · subst hc
      have hsp : splitNl ('\n' :: rest) = [] :: splitNl rest := rfl
      rw [hsp] at hp
      rcases List.mem_cons.mp hp with rfl | hp'
      · simp
      · exact ih p hp'
    · cases hs : splitNl rest with
      | nil => exact absurd hs (splitNl_ne_nil rest)
      | cons q qs =>
        have hsp : splitNl (c :: rest) = (c :: q) :: qs := by
          unfold splitNl
          rw [if_neg hc, hs]
        rw [hsp] at hp
        rcases List.mem_cons.mp hp with rfl | hp'
        · intro hmem
          rcases List.mem_cons.mp hmem with he | hq
          · exact hc he.symm
          · exact ih q (hs ▸ List.mem_cons_self q qs) hq
        · exact ih p (hs ▸ List.mem_cons_of_mem q hp')

theorem splitNl_lowerStr (cs : List Char) :
    splitNl (lowerStr cs) = (splitNl cs).map lowerStr := by
  induction cs with
  | nil => rfl
  | cons c rest ih =>
    show splitNl (c.toLower :: lowerStr rest) = _
    unfold splitNl
    by_cases hc : c = '\n'
    · rw [if_pos (by rw [hc]; rfl), if_pos hc]
      rw [ih]
      rfl
    · rw [if_neg (fun he => hc ((toLower_eq_nl c).mp he)), if_neg hc]
      rw [ih]
      cases hs : splitNl rest with
      | nil => exact absurd hs (splitNl_ne_nil rest)
      | cons q qs => rfl

theorem lowerStr_joinNl (ls : List (List Char)) :
    lowerStr (joinNl ls) = joinNl (ls.map lowerStr) := by
  induction ls with
  | nil => rfl
  | cons l rest ih =>
    cases rest with
    | nil => rfl
    | cons x xs =>
      rw [joinNl_cons l (by simp), List.map_cons,
        joinNl_cons (lowerStr l) (show List.map lowerStr (x :: xs) ≠ [] by simp), ← ih]
      rw [lowerStr_append]
      rfl

/-! ### Lifting occurrences through newline joins -/

theorem occursAt_append_nl {a b t : List Char} (hnl : '\n' ∉ t) {q : Nat}
    (h : OccursAt (a ++ '\n' :: b) t q) :
    (∃ i, OccursAt a t i) ∨ ∃ i, OccursAt b t i := by
  obtain ⟨hlen, hpt⟩ := occursAt_getElem.mp h
  have htot : (a ++ '\n' :: b).length = a.length + 1 + b.length := by
    simp
    omega
  by_cases h1 : q + t.length ≤ a.length
  · left
    refine ⟨q, occursAt_getElem.mpr ⟨h1, fun j hj => ?_⟩⟩
    have := hpt j hj
    rw [List.getElem?_append, if_pos (by omega)] at this
    exact this
  · by_cases h2 : a.length + 1 ≤ q
    · right
      refine ⟨q - (a.length + 1), occursAt_getElem.mpr ⟨by omega, fun j hj => ?_⟩⟩
      have := hpt j hj
      rw [List.getElem?_append_right (by omega)] at this
      have hsh : q + j - a.length = (q - (a.length + 1) + j) + 1 := by omega
      rw [hsh] at this
      simpa using this
    · exfalso
      have hj : a.length - q < t.length := by omega
      have := hpt (a.length - q) hj
      rw [List.getElem?_append_right (by omega)] at this
      have hz : q + (a.length - q) - a.length = 0 := by omega
      rw [hz] at this
      simp at this
      exact hnl (List.getElem?_mem this.symm)

theorem occursAt_joinNl {t : List Char} (hnl : '\n' ∉ t) (hne : t ≠ []) :
    ∀ (ls : List (List Char)) (q : Nat), OccursAt (joinNl ls) t q →
      ∃ p ∈ ls, ∃ i, OccursAt p t i := by
  intro ls
  induction ls with
  | nil =>
    intro q hq
    obtain ⟨hlen, _⟩ := hq
    simp [joinNl] at hlen
    exact absurd hlen.2 hne
  | cons l rest ih =>
    intro q hq
    cases rest with
    | nil => exact ⟨l, List.mem_singleton.mpr rfl, q, hq⟩
    | cons x xs =>
      rw [joinNl_cons _ (by simp)] at hq
      rcases occursAt_append_nl hnl hq with ⟨i, hi⟩ | ⟨i, hi⟩
      · exact ⟨l, List.mem_cons_self _ _, i, hi⟩
      · obtain ⟨p, hp, j, hj⟩ := ih i hi
        exact ⟨p, List.mem_cons_of_mem l hp, j, hj⟩

theorem mem_joinNl_decompose {ls : List (List Char)} {l : List Char} (h : l ∈ ls) :
    ∃ a b, joinNl ls = a ++ l ++ b := by
  induction ls with
  | nil => exact absurd h (List.not_mem_nil l)
  | cons x xs ih =>
    rcases List.mem_cons.mp h with rfl | hmem
    · cases xs with
      | nil => exact ⟨[], [], by simp [joinNl]⟩
      | cons y ys => exact ⟨[], '\n' :: joinNl (y :: ys), by rw [joinNl_cons _ (by simp)]; simp⟩
    · obtain ⟨a, b, hab⟩ := ih hmem
      have hxs : xs ≠ [] := fun he => by rw [he] at hmem; exact List.not_mem_nil l hmem
      refine ⟨x ++ '\n' :: a, b, ?_⟩
      rw [joinNl_cons _ hxs, hab]
      simp

theorem occursAt_infix {a l b t : List Char} {i : Nat} (h : OccursAt l t i) :
    OccursAt (a ++ l ++ b) t (a.length + i) := by
  obtain ⟨hlen, hpt⟩ := occursAt_getElem.mp h
  rw [occursAt_getElem]
  constructor
  · simp
    omega
  · intro j hj
    rw [List.append_assoc, List.getElem?_append_right (by omega)]
    have hsh : a.length + i + j - a.length = i + j := by omega
    rw [hsh, List.getElem?_append, if_pos (by omega)]
    exact hpt j hj

/-! ### Reducing the PlainTextFormat pipeline to the lowered model -/

theorem lowerStr_applyBoxToLine (line t : List Char) :
    lowerStr (applyBoxToLine line t) = replaceFirst (lowerStr line) (lowerStr t) := by
  cases h : indexOfFrom (lowerStr line) (lowerStr t) 0 with
  | none => simp only [applyBoxToLine, replaceFirst, h]
  | some i =>
    simp only [applyBoxToLine, replaceFirst, h]
    rw [lowerStr_append, lowerStr_append, lowerStr_blockRun]
    unfold lowerStr
    rw [List.map_take, List.map_drop, List.length_map]

theorem foldl_applyBox_eq_iterate {T : List Char} :
    ∀ (bs : List BoundingBox) (line : List Char),
      (∀ b ∈ bs, lowerStr b.text = T) →
      lowerStr (bs.foldl (fun l b => applyBoxToLine l b.text) line) =
        (fun u => replaceFirst u T)^[bs.length] (lowerStr line) := by
  intro bs
  induction bs with
  | nil => intro line _; simp
  | cons b rest ih =>
    intro line hall
    rw [List.foldl_cons, ih _ (fun x hx => hall x (List.mem_cons_of_mem b hx)),
      lowerStr_applyBoxToLine, hall b (List.mem_cons_self b rest), List.length_cons,
      Function.iterate_succ_apply]

theorem lowerStr_redactLineBoxes {T : List Char} (line : List Char)
    (bs : List BoundingBox) (hall : ∀ b ∈ bs, lowerStr b.text = T) :
    lowerStr (redactLineBoxes line bs) =
      (fun u => replaceFirst u T)^[bs.length] (lowerStr line) := by
  unfold redactLineBoxes
  have hperm := List.perm_insertionSort (boxKeyGE line) bs
  rw [foldl_applyBox_eq_iterate _ line (fun b hb => hall b (hperm.mem_iff.mp hb)),
    hperm.length_eq]

theorem length_iterate_replaceFirst (T : List Char) :
    ∀ (n : Nat) (s : List Char), ((fun u => replaceFirst u T)^[n] s).length = s.length := by
  intro n
  induction n with
  | zero => intro s; simp
  | succ n ih =>
    intro s
    rw [Function.iterate_succ_apply, ih, length_replaceFirst]

theorem findBoxesInLine_spec (term line : List Char) (li : Nat) :
    ∀ b ∈ findBoxesInLine term line li,
      lowerStr b.text = lowerStr term ∧ b.line = some li := by
  intro b hb
  unfold findBoxesInLine at hb
  rcases List.mem_map.mp hb with ⟨i, hi, rfl⟩
  have hocc : OccursAt (lowerStr line) (lowerStr term) i := by
    rw [scanFrom_eq_filter] at hi
    exact mem_occIdxs.mp (List.mem_filter.mp hi).1
  refine ⟨?_, rfl⟩
  show lowerStr ((line.drop i).take term.length) = lowerStr term
  unfold lowerStr
  rw [List.map_take, List.map_drop]
  have := hocc.2
  rwa [lowerStr_length] at this

theorem findBoxesInLine_length (term line : List Char) (li : Nat) :
    (findBoxesInLine term line li).length = occCount (lowerStr line) (lowerStr term) := by
  unfold findBoxesInLine
  rw [List.length_map, scanFrom_zero_length]

theorem findBoxesFrom_line_ge (term : List Char) :
    ∀ (ls : List (List Char)) (k : Nat) (b : BoundingBox),
      b ∈ findBoxesFrom term k ls → ∃ m, b.line = some m ∧ k ≤ m := by
  intro ls
  induction ls with
  | nil => intro k b hb; exact absurd hb (List.not_mem_nil b)
  | cons x xs ih =>
    intro k b hb
    rcases List.mem_append.mp hb with hb1 | hb2
    · exact ⟨k, (findBoxesInLine_spec term x k b hb1).2, le_refl k⟩
    · obtain ⟨m, hm, hkm⟩ := ih (k + 1) b hb2
      exact ⟨m, hm, by omega⟩

theorem filter_findBoxesFrom (term : List Char) :
    ∀ (ls : List (List Char)) (k j : Nat) (l : List Char), ls[j]? = some l →
      (findBoxesFrom term k ls).filter (fun b => b.line = some (k + j)) =
        findBoxesInLine term l (k + j) := by
  intro ls
  induction ls with
  | nil => intro k j l hl; simp at hl
  | cons x xs ih =>
    intro k j l hl
    show (findBoxesInLine term x k ++ findBoxesFrom term (k + 1) xs).filter _ = _
    rw [List.filter_append]
    cases j with
    | zero =>
      simp only [List.getElem?_cons_zero, Option.some.injEq] at hl
      subst hl
      have h1 : (findBoxesInLine term x k).filter
          (fun b => decide (b.line = some (k + 0))) = findBoxesInLine term x k := by
        rw [List.filter_eq_self]
        intro b hb
        rw [(findBoxesInLine_spec term x k b hb).2]
        simp
      have h2 : (findBoxesFrom term (k + 1) xs).filter
          (fun b => decide (b.line = some (k + 0))) = [] := by
        rw [List.filter_eq_nil_iff]
        intro b hb
        obtain ⟨m, hm, hkm⟩ := findBoxesFrom_line_ge term xs (k + 1) b hb
        rw [hm]
        simp only [decide_eq_true_eq, Option.some.injEq]
        omega
      rw [h1, h2, List.append_nil]
      rfl
    | succ j =>
      simp only [List.getElem?_cons_succ] at hl
      have h1 : (findBoxesInLine term x k).filter
          (fun b => decide (b.line = some (k + (j + 1)))) = [] := by
        rw [List.filter_eq_nil_iff]
        intro b hb
        rw [(findBoxesInLine_spec term x k b hb).2]
        simp only [decide_eq_true_eq, Option.some.injEq]
        omega
      have h2 := ih (k + 1) j l hl
      rw [h1, List.nil_append]
      rw [show k + (j + 1) = k + 1 + j by omega]
      exact h2

theorem redactLinesFrom_getElem (boxes : List BoundingBox) :
    ∀ (ls : List (List Char)) (k j : Nat),
      (redactLinesFrom boxes k ls)[j]? =
        (ls[j]?).map
          (fun l => redactLineBoxes l (boxes.filter (fun b => b.line = some (k + j)))) := by
  intro ls
  induction ls with
  | nil => intro k j; simp [redactLinesFrom]
  | cons x xs ih =>
    intro k j
    cases j with
    | zero => simp [redactLinesFrom]
    | succ j =>
      have hcons : redactLinesFrom boxes k (x :: xs) =
          redactLineBoxes x (boxes.filter (fun b => b.line = some k)) ::
            redactLinesFrom boxes (k + 1) xs := by
        rw [redactLinesFrom]
      rw [hcons, List.getElem?_cons_succ, ih (k + 1) j, List.getElem?_cons_succ,
        show k + 1 + j = k + (j + 1) by omega]

theorem redactLinesFrom_length (boxes : List BoundingBox) :
    ∀ (ls : List (List Char)) (k : Nat),
      (redactLinesFrom boxes k ls).length = ls.length := by
  intro ls
  induction ls with
  | nil => intro k; rfl
  | cons x xs ih =>
    intro k
    show (redactLinesFrom boxes (k + 1) xs).length + 1 = xs.length + 1
    rw [ih]

theorem findTextBoxesPT_single (doc : PTDoc) (term : List Char)
    (hbl : isBlankTerm term = false) :
    findTextBoxesPT doc [term] = findBoxesFrom term 0 doc.lines := by
  unfold findTextBoxesPT
  simp [hbl]

theorem length_redactLineBoxes_of_eqlower (term l : List Char) (j : Nat) :
    (redactLineBoxes l (findBoxesInLine term l j)).length = l.length := by
  have h := lowerStr_redactLineBoxes l (findBoxesInLine term l j)
    (fun b hb => (findBoxesInLine_spec term l j b hb).1)
  have h1 := lowerStr_length (redactLineBoxes l (findBoxesInLine term l j))
  rw [h, length_iterate_replaceFirst, lowerStr_length] at h1
  exact h1.symm

/-- C2: redacting a plain-text document on a (non-blank, newline-free,
block-free) term via `findTextBoxes` and `redact` replaces every
case-insensitive occurrence by an equal-length run of block characters:
the export no longer contains the term (even case-insensitively), it
does contain a block run of the term's length whenever the term
occurred, and every line keeps its exact length (each matched substring
is replaced by an equal-length run). -/
theorem C2_plaintext_redaction (text term : List Char)
    (hbl : isBlankTerm term = false)
    (hnl : '\n' ∉ lowerStr term) (hblk : blk ∉ lowerStr term) :
    (∀ q, ¬OccursAt
      (lowerStr (exportPT (redactPT (loadPT text) (findTextBoxesPT (loadPT text) [term]))))
      (lowerStr term) q) ∧
    ((∃ q, OccursAt (lowerStr text) (lowerStr term) q) →
      ∃ i, OccursAt
        (exportPT (redactPT (loadPT text) (findTextBoxesPT (loadPT text) [term])))
        (blockRun term.length) i) ∧
    (redactPT (loadPT text) (findTextBoxesPT (loadPT text) [term])).lines.length =
      (loadPT text).lines.length ∧
    (∀ j : Nat, ((redactPT (loadPT text) (findTextBoxesPT (loadPT text) [term])).lines[j]?).map
        (fun l : List Char => l.length) =
      ((loadPT text).lines[j]?).map (fun l : List Char => l.length)) := by
  have hTne : lowerStr term ≠ [] := by
    intro he
    unfold lowerStr at he
    rw [List.map_eq_nil_iff] at he
    rw [he] at hbl
    simp [isBlankTerm] at hbl
  have hboxes : findTextBoxesPT (loadPT text) [term] =
      findBoxesFrom term 0 (splitNl text) :=
    findTextBoxesPT_single (loadPT text) term hbl
  have hlines : (redactPT (loadPT text) (findTextBoxesPT (loadPT text) [term])).lines =
      redactLinesFrom (findBoxesFrom term 0 (splitNl text)) 0 (splitNl text) := by
    rw [show (redactPT (loadPT text) (findTextBoxesPT (loadPT text) [term])).lines =
      redactLinesFrom (findTextBoxesPT (loadPT text) [term]) 0 (splitNl text) from rfl, hboxes]
  have hline : ∀ (j : Nat) (l : List Char), (splitNl text)[j]? = some l →
      (redactLinesFrom (findBoxesFrom term 0 (splitNl text)) 0 (splitNl text))[j]? =
        some (redactLineBoxes l (findBoxesInLine term l j)) := by
    intro j l hl
    have hf := filter_findBoxesFrom term (splitNl text) 0 j l hl
    rw [Nat.zero_add] at hf
    rw [redactLinesFrom_getElem, hl, Option.map_some', Nat.zero_add, hf]
  have hnoocc : ∀ (j : Nat) (l : List Char), (splitNl text)[j]? = some l → ∀ q,
      ¬OccursAt (lowerStr (redactLineBoxes l (findBoxesInLine term l j)))
        (lowerStr term) q := by
    intro j l hl q
    rw [lowerStr_redactLineBoxes l _ (fun b hb => (findBoxesInLine_spec term l j b hb).1),
      findBoxesInLine_length]
    exact iterate_replaceFirst_no_occ hblk hTne _ _ le_rfl q
  refine ⟨?_, ?_, ?_, ?_⟩
  · intro q hq
    rw [show exportPT (redactPT (loadPT text) (findTextBoxesPT (loadPT text) [term])) =
        joinNl (redactPT (loadPT text) (findTextBoxesPT (loadPT text) [term])).lines from rfl,
      hlines, lowerStr_joinNl] at hq
    obtain ⟨p, hp, i, hi⟩ := occursAt_joinNl hnl hTne _ q hq
    obtain ⟨l', hl', rfl⟩ := List.mem_map.mp hp
    obtain ⟨j, hj⟩ := List.mem_iff_getElem?.mp hl'
    rw [redactLinesFrom_getElem] at hj
    rcases hls : (splitNl text)[j]? with _ | l
    · rw [hls] at hj
      simp at hj
    · rw [hls] at hj
      rw [Option.map_some', Option.some.injEq] at hj
      have hf := filter_findBoxesFrom term (splitNl text) 0 j l hls
      rw [Nat.zero_add] at hf
      rw [Nat.zero_add, hf] at hj
      rw [← hj] at hi
      exact hnoocc j l hls i hi
  · rintro ⟨q, hq⟩
    rw [show lowerStr text = lowerStr (joinNl (splitNl text)) by rw [joinNl_splitNl],
      lowerStr_joinNl] at hq
    obtain ⟨p, hp, i, hi⟩ := occursAt_joinNl hnl hTne _ q hq
    obtain ⟨l, hl, rfl⟩ := List.mem_map.mp hp
    obtain ⟨j, hj⟩ := List.mem_iff_getElem?.mp hl
    cases h0 : indexOfFrom (lowerStr l) (lowerStr term) 0 with
    | none => exact absurd hi (indexOfFrom_none h0 i (Nat.zero_le i))
    | some i0 =>
      have hcnt : 1 ≤ occCount (lowerStr l) (lowerStr term) := by
        have hm : i ∈ occIdxs (lowerStr l) (lowerStr term) := mem_occIdxs.mpr hi
        unfold occCount
        cases hc : occIdxs (lowerStr l) (lowerStr term) with
        | nil => rw [hc] at hm; exact absurd hm (List.not_mem_nil i)
        | cons y ys => simp
      have hlow := lowerStr_redactLineBoxes l (findBoxesInLine term l j)
        (fun b hb => (findBoxesInLine_spec term l j b hb).1)
      rw [findBoxesInLine_length] at hlow
      have hrun : ∀ j', j' < (lowerStr term).length →
          (lowerStr (redactLineBoxes l (findBoxesInLine term l j)))[i0 + j']? =
            some blk := by
        rw [hlow]
        exact fun j' hj' => iterate_replaceFirst_run h0 hcnt j' hj'
      have hrunl : ∀ j', j' < term.length →
          (redactLineBoxes l (findBoxesInLine term l j))[i0 + j']? = some blk := by
        intro j' hj'
        have := hrun j' (by rwa [lowerStr_length])
        rw [show lowerStr (redactLineBoxes l (findBoxesInLine term l j)) =
            (redactLineBoxes l (findBoxesInLine term l j)).map Char.toLower from rfl,
          List.getElem?_map] at this
        cases hc : (redactLineBoxes l (findBoxesInLine term l j))[i0 + j']? with
        | none => rw [hc] at this; exact absurd this (by simp)
        | some c =>
          rw [hc] at this
          simp only [Option.map_some', Option.some.injEq] at this
          rw [(toLower_eq_blk c).mp this]
    -- the redacted line contains the block run as a contiguous occurrence
      have hi0len : i0 + term.length ≤
          (redactLineBoxes l (findBoxesInLine term l j)).length := by
        have := occursAt_le (indexOfFrom_some h0).2.1
        rw [lowerStr_length, lowerStr_length] at this
        rwa [length_redactLineBoxes_of_eqlower]
      have hoccrun : OccursAt (redactLineBoxes l (findBoxesInLine term l j))
          (blockRun term.length) i0 := by
        rw [occursAt_getElem]
        refine ⟨by rwa [show (blockRun term.length).length = term.length by
          simp [blockRun]], fun j' hj' => ?_⟩
        have hj't : j' < term.length := by
          rwa [show (blockRun term.length).length = term.length by simp [blockRun]] at hj'
        rw [hrunl j' hj't]
        unfold blockRun
        rw [List.getElem?_replicate, if_pos hj't]
      have hmem : redactLineBoxes l (findBoxesInLine term l j) ∈
          redactLinesFrom (findBoxesFrom term 0 (splitNl text)) 0 (splitNl text) :=
        List.getElem?_mem (hline j l hj)
      obtain ⟨a, b, hab⟩ := mem_joinNl_decompose hmem
      refine ⟨a.length + i0, ?_⟩
      rw [show exportPT (redactPT (loadPT text) (findTextBoxesPT (loadPT text) [term])) =
          joinNl (redactPT (loadPT text) (findTextBoxesPT (loadPT text) [term])).lines
          from rfl, hlines, hab]
      exact occursAt_infix hoccrun
  · rw [hlines, redactLinesFrom_length]
    rfl
  · intro j
    rw [hlines, redactLinesFrom_getElem]
    rcases hls : (splitNl text)[j]? with _ | l
    · rw [show (loadPT text).lines = splitNl text from rfl, hls]
      rfl
    · rw [show (loadPT text).lines = splitNl text from rfl, hls]
      have hf := filter_findBoxesFrom term (splitNl text) 0 j l hls
      rw [Nat.zero_add] at hf
      rw [Option.map_some', Option.map_some', Option.map_some', Nat.zero_add, hf,
        length_redactLineBoxes_of_eqlower]

/-- Witness for C2 on the spec's example: redacting
`"My email is test@example.com"` on the term `"test@example.com"`. -/
theorem C2_plaintext_redaction_witness :
    (∀ q, ¬OccursAt
      (lowerStr (exportPT (redactPT (loadPT (("My email is test@example.com").toList))
        (findTextBoxesPT (loadPT (("My email is test@example.com").toList))
          [("test@example.com").toList]))))
      (lowerStr (("test@example.com").toList)) q) ∧
    ((∃ q, OccursAt (lowerStr (("My email is test@example.com").toList))
        (lowerStr (("test@example.com").toList)) q) →
      ∃ i, OccursAt
        (exportPT (redactPT (loadPT (("My email is test@example.com").toList))
          (findTextBoxesPT (loadPT (("My email is test@example.com").toList))
            [("test@example.com").toList])))
        (blockRun (("test@example.com").toList).length) i) ∧
    (redactPT (loadPT (("My email is test@example.com").toList))
      (findTextBoxesPT (loadPT (("My email is test@example.com").toList))
        [("test@example.com").toList])).lines.length =
      (loadPT (("My email is test@example.com").toList)).lines.length ∧
    (∀ j : Nat, ((redactPT (loadPT (("My email is test@example.com").toList))
        (findTextBoxesPT (loadPT (("My email is test@example.com").toList))
          [("test@example.com").toList])).lines[j]?).map
        (fun l : List Char => l.length) =
      ((loadPT (("My email is test@example.com").toList)).lines[j]?).map
        (fun l : List Char => l.length)) :=
  C2_plaintext_redaction (("My email is test@example.com").toList)
    (("test@example.com").toList) (by decide) (by decide) (by decide)

end AegisRedact
